import Mathlib

/-!
Verification of the sharding controller (src/controller.py).

The controller keeps three pieces of mutable state: an in-memory mapping
(a Python dict from id strings to byte-range records), a persisted copy of
that mapping (mapping.json), and the shard/replica files in the data
directory.  We embed that state shallowly: Python strings become `List Char`,
dicts become insertion-ordered association lists, and fallible operations
return `Except PyErr`.  Every definition below is translated directly from
the corresponding Python function.
-/

set_option maxHeartbeats 1000000

/-- Byte-range index entry: the Python dict with keys start and end.
The field `stop` models the Python key end (a reserved word in Lean). -/
structure Entry where
  start : Nat
  stop : Nat
deriving DecidableEq, Inhabited

/-- Insertion-ordered dictionary, modelling a Python dict with string keys
(also used for the data directory: file name to file contents). -/
abbrev PyDict (V : Type) := List (List Char × V)

/-- Assignment d[k] = v (also open(..,'w') followed by write): replaces the
value in place when the key is present, otherwise appends the new binding
(Python dict insertion order; a fresh file appears at the end of the dir). -/
def dictSet {V : Type} (m : PyDict V) (k : List Char) (v : V) : PyDict V :=
  if (List.lookup k m).isSome then
    m.map (fun p => if p.1 = k then (k, v) else p)
  else m ++ [(k, v)]

/-- d.pop(k) on a present key, and os.remove: drops the binding of the key. -/
def dictDrop {V : Type} (m : PyDict V) (k : List Char) : PyDict V :=
  m.filter (fun p => decide (p.1 ≠ k))

/-- Python exceptions the modelled code can raise. -/
inductive PyErr
  | fileNotFound
  | keyError
  | valueError
  | zeroDivision
deriving DecidableEq

deriving instance DecidableEq for Except

/-- The mutable state of a ShardHandler instance together with the world it
touches: `mapping` is self.mapping, `mapfile` the persisted mapping.json
content, `disk` the data directory, and the two counters are
self.last_char_position and self.replication_level. -/
structure PyState where
  mapping : PyDict Entry
  mapfile : PyDict Entry
  disk : PyDict (List Char)
  lastCharPosition : Nat
  replicationLevel : Nat
deriving DecidableEq

/-- Fuel-driven decimal rendering, auxiliary for `natDigits`; the fuel only
bounds the recursion depth so that the definition is structural (and hence
computes inside the kernel), it never runs out when it starts at n + 1. -/
def natDigitsFuel : Nat → Nat → List Char
  | 0, _ => []
  | fuel + 1, n =>
    if n < 10 then [Char.ofNat (48 + n)]
    else natDigitsFuel fuel (n / 10) ++ [Char.ofNat (48 + n % 10)]

/-- str(n) for a natural number: decimal digit characters. -/
def natDigits (n : Nat) : List Char := natDigitsFuel (n + 1) n

theorem natDigitsFuel_congr :
    ∀ f g n : Nat, n < f → n < g → natDigitsFuel f n = natDigitsFuel g n := by
  intro f
  induction f with
  | zero => intro g n hf; omega
  | succ f ih =>
    intro g n hf hg
    cases g with
    | zero => omega
    | succ g =>
      simp only [natDigitsFuel]
      by_cases h : n < 10
      · rw [if_pos h, if_pos h]
      · rw [if_neg h, if_neg h, ih g (n / 10) (by omega) (by omega)]

/-- The recursion equation of str(n) without the fuel. -/
theorem natDigits_eq_ite (n : Nat) :
    natDigits n = if n < 10 then [Char.ofNat (48 + n)]
      else natDigits (n / 10) ++ [Char.ofNat (48 + n % 10)] := by
  show natDigitsFuel (n + 1) n = _
  simp only [natDigitsFuel]
  by_cases h : n < 10
  · rw [if_pos h, if_pos h]
  · rw [if_neg h, if_neg h]
    show natDigitsFuel n (n / 10) ++ _ = natDigitsFuel (n / 10 + 1) (n / 10) ++ _
    rw [natDigitsFuel_congr n (n / 10 + 1) (n / 10) (by omega) (by omega)]

/-- Digit-string value: the number denoted by a list of decimal digits. -/
def digitsVal (l : List Char) : Nat :=
  l.foldl (fun a c => 10 * a + (c.toNat - 48)) 0

/-- Test for a decimal digit character. -/
def isDigitChar (c : Char) : Bool :=
  decide (48 ≤ c.toNat) && decide (c.toNat ≤ 57)

/-- int(s): succeeds exactly on nonempty all-digit strings, which are the only
shapes the program feeds it in the modelled states; anything else raises
ValueError. -/
def pyInt (l : List Char) : Except PyErr Nat :=
  if l ≠ [] ∧ l.all isDigitChar then .ok (digitsVal l) else .error .valueError

/-- Python string comparison: lexicographic on code points, a proper prefix
comparing as smaller. -/
def pyLe : List Char → List Char → Bool
  | [], _ => true
  | _ :: _, [] => false
  | a :: as, b :: bs => if a = b then pyLe as bs else decide (a < b)

/-- Stable insertion into a sorted list, auxiliary for `pySorted`. -/
def insertSorted (x : List Char) : List (List Char) → List (List Char)
  | [] => [x]
  | y :: ys => if pyLe x y then x :: y :: ys else y :: insertSorted x ys

/-- sorted(l) for a list of strings. -/
def pySorted (l : List (List Char)) : List (List Char) :=
  l.foldr insertSorted []

/-- max(l) for a nonempty list of naturals (all values in scope are ≥ 0, so
folding from 0 agrees with Python max). -/
def maxList (l : List Nat) : Nat := l.foldl max 0

/-- max(l) for a nonempty list of characters; Python max keeps the first of
equal elements. -/
def maxCharD : List Char → Char
  | [] => '0'
  | c :: cs => cs.foldl (fun a b => if decide (a < b) then b else a) c

/-- s[-1]: last character of a (nonempty, in all modelled states) string. -/
def lastCharD (l : List Char) : Char := l.getLastD '0'

/-- The ".txt" file extension. -/
def txtChars : List Char := ".txt".data

/-- Primary shard file name str(n) + ".txt". -/
def shardFile (n : Nat) : List Char := natDigits n ++ txtChars

/-- Replica mapping key str(n) + "-" + str(lvl). -/
def replicaKeyOf (n lvl : Nat) : List Char := natDigits n ++ '-' :: natDigits lvl

/-- Replica file name str(n) + "-" + str(lvl) + ".txt". -/
def replicaFileOf (n lvl : Nat) : List Char := replicaKeyOf n lvl ++ txtChars

/-- os.listdir('./data'): the file names, in directory order. -/
def listdir (s : PyState) : List (List Char) := s.disk.map Prod.fst

/-- write_map: dump self.mapping to the mapfile. -/
def writeMap (s : PyState) : PyState := { s with mapfile := s.mapping }

/-- load_map assigned to self.mapping (a missing mapfile loads as the empty
dict, which we represent as the empty list). -/
def loadMap (s : PyState) : PyState := { s with mapping := s.mapfile }

/-- get_shard_ids: sorted mapping keys not containing '-'. -/
def getShardIds (s : PyState) : List (List Char) :=
  pySorted ((s.mapping.map Prod.fst).filter (fun k => decide ('-' ∉ k)))

/-- get_replication_ids: sorted mapping keys containing '-'. -/
def getReplicationIds (s : PyState) : List (List Char) :=
  pySorted ((s.mapping.map Prod.fst).filter (fun k => decide ('-' ∈ k)))

/-- result[-1] += t on a list of strings (the list is nonempty wherever the
program does this, since count ≥ 1 there). -/
def appendLast : List (List Char) → List Char → List (List Char)
  | [], _ => []
  | [x], t => [x ++ t]
  | x :: y :: r, t => x :: appendLast (y :: r) t

/-- _generate_sharded_data: count slices of length len(data)//count, with the
trailing len(data) % count characters appended to the last slice. -/
def generateShardedData (count : Nat) (data : List Char) : List (List Char) :=
  let splicenum := data.length / count
  let rem := data.length % count
  let result := (List.range count).map (fun z => (data.drop (splicenum * z)).take splicenum)
  if 0 < rem then appendLast result (data.drop (data.length - rem)) else result

/-- _write_shard_mapping on the non-replication path (the only live one), for
the key str(num): reset the character position on shard 0, then record the
range with the +1 offset applied to every start after position 0.  The Python
function receives str(num) and converts it back with int(), which round-trips,
so we keep the numeric argument. -/
def writeShardMapping (s : PyState) (num : Nat) (data : List Char) : PyState :=
  let s := if num = 0 then { s with lastCharPosition := 0 } else s
  let start := if s.lastCharPosition = 0 then s.lastCharPosition else s.lastCharPosition + 1
  { s with
      mapping := dictSet s.mapping (natDigits num) ⟨start, s.lastCharPosition + data.length⟩,
      lastCharPosition := s.lastCharPosition + data.length }

/-- _write_shard: write the piece to data/{num}.txt and record its mapping. -/
def writeShard (s : PyState) (num : Nat) (data : List Char) : PyState :=
  writeShardMapping { s with disk := dictSet s.disk (shardFile num) data } num data

/-- The enumerate loop shared by build_shards, add_shard and remove_shard:
write piece i as shard i. -/
def writeShards (s : PyState) (pieces : List (List Char)) : PyState :=
  pieces.enum.foldl (fun st p => writeShard st p.1 p.2) s

/-- The message build_shards returns when a mapping already exists. -/
def alreadyShardedMsg : List Char :=
  "Cannot build shard setup -- sharding already exists.".data

/-- build_shards: refuse when a mapping exists, otherwise split, write every
shard, and persist the mapping.  The returned Option String is the Python
return value (the refusal message or None). -/
def buildShards (count : Nat) (data : List Char) (s : PyState) :
    Except PyErr (Option (List Char) × PyState) :=
  if s.mapping ≠ [] then .ok (some alreadyShardedMsg, s)
  else if count = 0 then .error .zeroDivision
  else .ok (none, writeMap (writeShards s (generateShardedData count data)))

/-- load_data_from_shards: read data/{id}.txt for every shard id in sorted
string order and concatenate; a missing file raises. -/
def loadDataFromShards (s : PyState) : Except PyErr (List Char) :=
  match (getShardIds s).mapM (fun db =>
    match List.lookup (db ++ txtChars) s.disk with
    | some c => Except.ok c
    | none => Except.error PyErr.fileNotFound) with
  | .error e => .error e
  | .ok pieces => .ok pieces.flatten

/-- find_highest_replication_level: int(max(last characters of the replica
ids)), or 0 when there are none. -/
def findHighestReplicationLevel (s : PyState) : Nat :=
  let ids := getReplicationIds s
  if ids ≠ [] then (maxCharD (ids.map lastCharD)).toNat - 48
  else 0

/-- The primary_ids list of verify_primaries: the first character of every
file name without '-' currently in the data directory. -/
def primaryHeads (s : PyState) : List (List Char) :=
  ((listdir s).filter (fun f => decide ('-' ∉ f))).map (fun f => [f.headD '?'])

/-- One iteration of the verify_primaries loop over an expected shard id:
when no file whose first character matches the id exists (pids is the
primary_ids snapshot), recreate the primary from the replica at the current
highest replication level. -/
def primaryRepairStep (pids : List (List Char)) (st : PyState) (id : List Char) :
    Except PyErr PyState :=
  if id ∈ pids then pure st
  else
    match List.lookup (id ++ '-' :: natDigits (findHighestReplicationLevel st) ++ txtChars)
        st.disk with
    | some content => pure { st with disk := dictSet st.disk (id ++ txtChars) content }
    | none => Except.error PyErr.fileNotFound

/-- verify_primaries (inner function of sync_replication). -/
def verifyPrimaries (s : PyState) : Except PyErr PyState :=
  (getShardIds s).foldlM (primaryRepairStep (primaryHeads s)) s

/-- One iteration of the verify_replications loop over a replica file name:
compare its size against the file named after the replica's first character;
on mismatch delete the replica and recreate it from that primary. -/
def replicaRepairStep (st : PyState) (r : List Char) : Except PyErr PyState :=
  match List.lookup ([r.headD '?'] ++ txtChars) st.disk with
  | none => Except.error PyErr.fileNotFound
  | some cp =>
    match List.lookup r st.disk with
    | none => Except.error PyErr.fileNotFound
    | some cr =>
      if cp.length = cr.length then pure st
      else
        let st' := if (List.lookup r st.disk).isSome then
          { st with disk := dictDrop st.disk r } else st
        match List.lookup ([r.headD '?'] ++ txtChars) st'.disk with
        | some content => pure { st' with disk := dictSet st'.disk r content }
        | none => Except.error PyErr.fileNotFound

/-- verify_replications (inner function of sync_replication). -/
def verifyReplications (s : PyState) : Except PyErr PyState :=
  ((listdir s).filter (fun f => decide ('-' ∈ f))).foldlM replicaRepairStep s

/-- sync_replication: when replica ids exist in the mapping, verify the
primaries first and then the replications; otherwise do nothing. -/
def syncReplication (s : PyState) : Except PyErr PyState :=
  if getReplicationIds s ≠ [] then
    match verifyPrimaries s with
    | .error e => .error e
    | .ok s' => verifyReplications s'
  else pure s

/-- add_shard: reload the mapping, concatenate the shards in sorted string
order, re-split into max(ids) + 2 pieces, overwrite every shard, persist and
sync.  max of an empty list raises ValueError. -/
def addShard (s : PyState) : Except PyErr PyState :=
  let s := loadMap s
  match loadDataFromShards s with
  | .error e => .error e
  | .ok data =>
    match (getShardIds s).mapM pyInt with
    | .error e => .error e
    | .ok keys =>
      if keys = [] then Except.error PyErr.valueError
      else
        let newShardNum := maxList keys + 2
        let spliced := generateShardedData newShardNum data
        syncReplication (writeMap (writeShards s spliced))

/-- One iteration of the remove_shard deletion loop: delete the file whose
name prefix (before '-' for replicas, before '.' for primaries) is
str(new_shard_num). -/
def staleFileRemoveStep (newShardNum : Nat) (st : PyState) (file : List Char) : PyState :=
  if decide ('-' ∈ file) then
    if file.takeWhile (fun c => decide (c ≠ '-')) = natDigits newShardNum then
      { st with disk := dictDrop st.disk file }
    else st
  else
    if file.takeWhile (fun c => decide (c ≠ '.')) = natDigits newShardNum then
      { st with disk := dictDrop st.disk file }
    else st

/-- remove_shard: reload, concatenate, re-split into max(ids) pieces, delete
the files whose name prefix (before '-' for replicas, before '.' for
primaries) is str(max(ids)), pop that primary key from the mapping, rewrite
the remaining shards, persist and sync.  A single remaining shard would make
the new count 0 and the splitter divide by zero. -/
def removeShard (s : PyState) : Except PyErr PyState :=
  let s := loadMap s
  match loadDataFromShards s with
  | .error e => .error e
  | .ok data =>
    match (getShardIds s).mapM pyInt with
    | .error e => .error e
    | .ok keys =>
      if keys = [] then Except.error PyErr.valueError
      else
        let newShardNum := maxList keys
        if newShardNum = 0 then Except.error PyErr.zeroDivision
        else
          let spliced := generateShardedData newShardNum data
          let files := listdir s
          let s := files.foldl (staleFileRemoveStep newShardNum) s
          let s := { s with mapping := dictDrop s.mapping (natDigits newShardNum) }
          syncReplication (writeMap (writeShards s spliced))

/-- One iteration of the add_replication loop over a directory entry: skip
replica files; copy a primary file to {first char}-{level}.txt and give the
mapping key {first char}-{level} the entry of the mapping key equal to that
first character (a missing parent entry raises KeyError). -/
def replicationCopyStep (currentLevel : Nat) (st : PyState) (f : List Char) :
    Except PyErr PyState :=
  if decide ('-' ∈ f) then pure st
  else
    match List.lookup f st.disk with
    | none => Except.error PyErr.fileNotFound
    | some content =>
      let st' := { st with
        disk := dictSet st.disk ([f.headD '?'] ++ '-' :: natDigits currentLevel ++ txtChars)
          content }
      match List.lookup [f.headD '?'] st'.mapping with
      | none => Except.error PyErr.keyError
      | some entry =>
        pure { st' with
          mapping := dictSet st'.mapping ([f.headD '?'] ++ '-' :: natDigits currentLevel)
            entry }

/-- add_replication: bump the replication level, then run the copy step over
every file currently in the data directory, and persist the mapping. -/
def addReplication (s : PyState) : Except PyErr PyState :=
  let s := { s with replicationLevel := s.replicationLevel + 1 }
  let currentLevel := s.replicationLevel
  let files := listdir s
  match files.foldlM (replicationCopyStep currentLevel) s with
  | .error e => .error e
  | .ok s' => pure (writeMap s')

/-- One iteration of the remove_replication loop over a shard id: delete the
file {id}-{level}.txt when it exists and pop its mapping key (a file without
a mapping key raises KeyError). -/
def levelRemoveStep (repCount : Nat) (st : PyState) (key : Nat) :
    Except PyErr PyState :=
  if (List.lookup (replicaFileOf key repCount) st.disk).isSome then
    let st := { st with disk := dictDrop st.disk (replicaFileOf key repCount) }
    if (List.lookup (replicaKeyOf key repCount) st.mapping).isSome then
      pure { st with mapping := dictDrop st.mapping (replicaKeyOf key repCount) }
    else Except.error PyErr.keyError
  else pure st

/-- remove_replication: reload the mapping; when self.replication_level is 0
raise (nothing to remove), otherwise run the removal step at that level over
every shard id, persist and sync. -/
def removeReplication (s : PyState) : Except PyErr PyState :=
  let s := loadMap s
  match (getShardIds s).mapM pyInt with
  | .error e => .error e
  | .ok keys =>
    let repCount := s.replicationLevel
    if repCount ≠ 0 then
      match keys.foldlM (levelRemoveStep repCount) s with
      | .error e => .error e
      | .ok s' => syncReplication (writeMap s')
    else Except.error PyErr.fileNotFound

/-- A Python value passed as the shardnum argument of get_shard_data. -/
inductive PyVal
  | pyNone
  | pyIntV (n : Int)
  | pyStr (s : List Char)
deriving DecidableEq

/-- Python truthiness test (negated) for the values above. -/
def isFalsy : PyVal → Bool
  | .pyNone => true
  | .pyIntV n => decide (n = 0)
  | .pyStr s => decide (s = [])

/-- self.mapping.get(shardnum): only string keys can be present. -/
def mappingGet (s : PyState) : PyVal → Option Entry
  | .pyStr k => List.lookup k s.mapping
  | _ => Option.none

/-- The three possible results of get_shard_data. -/
inductive ShardDataResult
  | allData (m : PyDict Entry)
  | invalid (validIds : List (List Char))
  | info (id : PyVal) (e : Entry)
deriving DecidableEq

/-- get_shard_data: a falsy argument returns the whole mapping
(get_all_shard_data), a missing key the invalid-id message listing the valid
ids, otherwise the entry (entries are nonempty dicts, hence truthy). -/
def getShardData (s : PyState) (shardnum : PyVal) : ShardDataResult :=
  if isFalsy shardnum then .allData s.mapping
  else
    match mappingGet s shardnum with
    | some e => .info shardnum e
    | none => .invalid (getShardIds s)

/-- get_all_shard_data: the mapping itself. -/
def getAllShardData (s : PyState) : PyDict Entry := s.mapping

/-- A fresh ShardHandler state over an empty directory: empty mapping, empty
persisted mapping, no files, both counters 0. -/
def initState : PyState := ⟨[], [], [], 0, 0⟩

/-- Project the state out of a successful operation. -/
def okState : Except PyErr PyState → Option PyState := Except.toOption

/-- Concatenation of the primary shard files 0 .. n-1 in ascending numeric
order, the spec's notion of reconstructing the dataset. -/
def reconstructDisk (s : PyState) (n : Nat) : List Char :=
  ((List.range n).map (fun i => (List.lookup (shardFile i) s.disk).getD [])).flatten

/-! ### Splitter lemmas (C1, C2) -/

theorem appendLast_length (t : List Char) :
    ∀ xs : List (List Char), (appendLast xs t).length = xs.length
  | [] => rfl
  | [_] => rfl
  | x :: y :: r => by
    simpa [appendLast] using appendLast_length t (y :: r)

theorem appendLast_flatten (t : List Char) :
    ∀ xs : List (List Char), xs ≠ [] → (appendLast xs t).flatten = xs.flatten ++ t
  | [], h => absurd rfl h
  | [x], _ => by simp [appendLast]
  | x :: y :: r, _ => by
    simp [appendLast, appendLast_flatten t (y :: r) (by simp), List.append_assoc]

theorem appendLast_getD (t : List Char) :
    ∀ (xs : List (List Char)) (i : Nat), i + 1 < xs.length →
      (appendLast xs t).getD i [] = xs.getD i []
  | [], _, h => by simp at h
  | [x], i, h => by simp at h
  | x :: y :: r, 0, _ => by simp [appendLast]
  | x :: y :: r, i + 1, h => by
    have := appendLast_getD t (y :: r) i (by simpa using h)
    simpa [appendLast] using this

theorem appendLast_getD_last (t : List Char) :
    ∀ xs : List (List Char), xs ≠ [] →
      (appendLast xs t).getD (xs.length - 1) [] = xs.getD (xs.length - 1) [] ++ t
  | [], h => absurd rfl h
  | [x], _ => by simp [appendLast]
  | x :: y :: r, _ => by
    have := appendLast_getD_last t (y :: r) (by simp)
    simpa [appendLast] using this

theorem flatten_slices (data : List Char) (b : Nat) (count : Nat) :
    ((List.range count).map (fun z => (data.drop (b * z)).take b)).flatten
      = data.take (b * count) := by
  induction count with
  | zero => simp
  | succ n ih =>
    rw [List.range_succ, List.map_append, List.flatten_append, ih]
    simp only [List.map_cons, List.map_nil, List.flatten_cons, List.flatten_nil,
      List.append_nil]
    rw [Nat.mul_succ, List.take_add]

theorem slices_getD (data : List Char) (b count i : Nat) (h : i < count) :
    ((List.range count).map (fun z => (data.drop (b * z)).take b)).getD i []
      = (data.drop (b * i)).take b := by
  rw [List.getD_eq_getElem?_getD, List.getElem?_map, List.getElem?_range h]
  rfl

theorem generateShardedData_length (count : Nat) (data : List Char) :
    (generateShardedData count data).length = count := by
  by_cases h : 0 < data.length % count
  · simp [generateShardedData, h, appendLast_length]
  · simp [generateShardedData, h]

theorem generateShardedData_flatten (count : Nat) (data : List Char) (h1 : 1 ≤ count) :
    (generateShardedData count data).flatten = data := by
  have hdm := Nat.mod_add_div' data.length count
  have hle : data.length % count ≤ data.length := Nat.mod_le _ _
  by_cases h : 0 < data.length % count
  · rw [generateShardedData]
    simp only [h, if_pos]
    rw [appendLast_flatten _ _ (by simp; omega), flatten_slices]
    have hb : data.length / count * count = data.length - data.length % count := by omega
    rw [hb]
    exact List.take_append_drop _ _
  · rw [generateShardedData]
    simp only [h, if_neg, if_false]
    rw [flatten_slices]
    have hb : data.length / count * count = data.length := by omega
    rw [hb, List.take_length]

theorem generateShardedData_piece_length (count : Nat) (data : List Char) (i : Nat)
    (h2 : count ≤ data.length) (hi : i + 1 < count) :
    ((generateShardedData count data).getD i []).length = data.length / count := by
  have h1 : 1 ≤ count := by omega
  have hbc : data.length / count * count ≤ data.length := Nat.div_mul_le_self _ _
  have hmono : data.length / count * (i + 1) ≤ data.length / count * count :=
    Nat.mul_le_mul_left _ (by omega)
  by_cases h : 0 < data.length % count
  · rw [generateShardedData]
    simp only [h, if_pos]
    rw [appendLast_getD _ _ _ (by simp; omega), slices_getD _ _ _ _ (by omega)]
    simp only [List.length_take, List.length_drop]
    have : data.length / count * i + data.length / count = data.length / count * (i + 1) := by
      ring
    omega
  · rw [generateShardedData]
    simp only [h, if_neg, if_false]
    rw [slices_getD _ _ _ _ (by omega)]
    simp only [List.length_take, List.length_drop]
    have : data.length / count * i + data.length / count = data.length / count * (i + 1) := by
      ring
    omega

theorem generateShardedData_last_length (count : Nat) (data : List Char)
    (h1 : 1 ≤ count) (h2 : count ≤ data.length) :
    ((generateShardedData count data).getD (count - 1) []).length
      = data.length / count + data.length % count := by
  have hbc : data.length / count * count ≤ data.length := Nat.div_mul_le_self _ _
  have hle : data.length % count ≤ data.length := Nat.mod_le _ _
  have hmono : data.length / count * (count - 1) + data.length / count
      = data.length / count * count := by
    have : count - 1 + 1 = count := by omega
    calc data.length / count * (count - 1) + data.length / count
        = data.length / count * (count - 1 + 1) := by ring
      _ = data.length / count * count := by rw [this]
  by_cases h : 0 < data.length % count
  · rw [generateShardedData]
    simp only [h, if_pos]
    have hlen : ((List.range count).map
        (fun z => (data.drop (data.length / count * z)).take (data.length / count))).length
        = count := by simp
    have hne : ((List.range count).map
        (fun z => (data.drop (data.length / count * z)).take (data.length / count))) ≠ [] := by
      simp; omega
    have := appendLast_getD_last (data.drop (data.length - data.length % count)) _ hne
    rw [hlen] at this
    rw [this, slices_getD _ _ _ _ (by omega)]
    simp only [List.length_append, List.length_take, List.length_drop]
    omega
  · rw [generateShardedData]
    simp only [h, if_neg, if_false]
    rw [slices_getD _ _ _ _ (by omega)]
    simp only [List.length_take, List.length_drop]
    omega

/-- C1: for every data and every count with 1 ≤ count ≤ len(data),
_generate_sharded_data returns exactly count contiguous pieces in original
byte order — their in-order concatenation is exactly data — each piece of
length len(data)//count except the last, which additionally receives the
trailing len(data) % count bytes. -/
theorem claim1_splitter_spec (data : List Char) (count : Nat)
    (h1 : 1 ≤ count) (h2 : count ≤ data.length) :
    (generateShardedData count data).length = count ∧
    (generateShardedData count data).flatten = data ∧
    (∀ i, i + 1 < count →
      ((generateShardedData count data).getD i []).length = data.length / count) ∧
    ((generateShardedData count data).getD (count - 1) []).length
      = data.length / count + data.length % count :=
  ⟨generateShardedData_length count data,
   generateShardedData_flatten count data h1,
   fun i hi => generateShardedData_piece_length count data i h2 hi,
   generateShardedData_last_length count data h1 h2⟩

theorem claim1_splitter_spec_witness :
    (generateShardedData 3 "abcdefgh".data).length = 3 ∧
    (generateShardedData 3 "abcdefgh".data).flatten = "abcdefgh".data ∧
    (∀ i, i + 1 < 3 →
      ((generateShardedData 3 "abcdefgh".data).getD i []).length = "abcdefgh".data.length / 3) ∧
    ((generateShardedData 3 "abcdefgh".data).getD (3 - 1) []).length
      = "abcdefgh".data.length / 3 + "abcdefgh".data.length % 3 :=
  claim1_splitter_spec "abcdefgh".data 3 (by decide) (by decide)

/-! ### Association-list dictionary lemmas -/

theorem lookup_cons_eq {V : Type} (m : PyDict V) (k : List Char) (v : V) :
    List.lookup k ((k, v) :: m) = some v := by
  rw [List.lookup_cons]
  have h : (k == k) = true := by simp
  rw [h]

theorem lookup_cons_ne {V : Type} (m : PyDict V) (a : List Char) (v : V) (k : List Char)
    (h : k ≠ a) : List.lookup k ((a, v) :: m) = List.lookup k m := by
  rw [List.lookup_cons]
  have hb : (k == a) = false := by simp [h]
  rw [hb]

theorem lookup_mapSet_self {V : Type} (k : List Char) (v : V) :
    ∀ m : PyDict V, (List.lookup k m).isSome →
      List.lookup k (m.map (fun p => if p.1 = k then (k, v) else p)) = some v := by
  intro m
  induction m with
  | nil => intro h; simp at h
  | cons p m ih =>
    intro h
    obtain ⟨a, b⟩ := p
    by_cases hp : a = k
    · subst hp
      rw [List.map_cons, if_pos rfl]
      exact lookup_cons_eq _ _ _
    · have hk : k ≠ a := fun hc => hp hc.symm
      rw [lookup_cons_ne m a b k hk] at h
      rw [List.map_cons, if_neg (by simpa using hp), lookup_cons_ne _ a b k hk]
      exact ih h

theorem lookup_mapSet_ne {V : Type} (k k' : List Char) (v : V) (h : k' ≠ k) :
    ∀ m : PyDict V,
      List.lookup k' (m.map (fun p => if p.1 = k then (k, v) else p)) = List.lookup k' m := by
  intro m
  induction m with
  | nil => rfl
  | cons p m ih =>
    obtain ⟨a, b⟩ := p
    by_cases hp : a = k
    · subst hp
      rw [List.map_cons, if_pos rfl, lookup_cons_ne _ a v k' h, lookup_cons_ne _ a b k' h]
      exact ih
    · rw [List.map_cons, if_neg (by simpa using hp)]
      by_cases hk : k' = a
      · subst hk
        rw [lookup_cons_eq, lookup_cons_eq]
      · rw [lookup_cons_ne _ a b k' hk, lookup_cons_ne _ a b k' hk]
        exact ih

theorem lookup_append_single_self {V : Type} (k : List Char) (v : V) :
    ∀ m : PyDict V, ¬ (List.lookup k m).isSome →
      List.lookup k (m ++ [(k, v)]) = some v := by
  intro m
  induction m with
  | nil => intro _; exact lookup_cons_eq _ _ _
  | cons p m ih =>
    intro h
    obtain ⟨a, b⟩ := p
    have hk : k ≠ a := by
      intro hc
      subst hc
      rw [lookup_cons_eq] at h
      exact h rfl
    rw [lookup_cons_ne m a b k hk] at h
    rw [List.cons_append, lookup_cons_ne _ a b k hk]
    exact ih h

theorem lookup_append_single_ne {V : Type} (k k' : List Char) (v : V) (h : k' ≠ k) :
    ∀ m : PyDict V, List.lookup k' (m ++ [(k, v)]) = List.lookup k' m := by
  intro m
  induction m with
  | nil => simp [lookup_cons_ne _ k v k' h]
  | cons p m ih =>
    obtain ⟨a, b⟩ := p
    by_cases hk : k' = a
    · subst hk
      rw [List.cons_append, lookup_cons_eq, lookup_cons_eq]
    · rw [List.cons_append, lookup_cons_ne _ a b k' hk, lookup_cons_ne _ a b k' hk]
      exact ih

theorem lookup_dictSet_self {V : Type} (m : PyDict V) (k : List Char) (v : V) :
    List.lookup k (dictSet m k v) = some v := by
  unfold dictSet
  split
  · rename_i h; exact lookup_mapSet_self k v m h
  · rename_i h; exact lookup_append_single_self k v m h

theorem lookup_dictSet_ne {V : Type} (m : PyDict V) (k k' : List Char) (v : V)
    (h : k' ≠ k) :
    List.lookup k' (dictSet m k v) = List.lookup k' m := by
  unfold dictSet
  split
  · exact lookup_mapSet_ne k k' v h m
  · exact lookup_append_single_ne k k' v h m

theorem mem_keys_dictSet {V : Type} (m : PyDict V) (k k' : List Char) (v : V)
    (h : k' ∈ (dictSet m k v).map Prod.fst) :
    k' ∈ m.map Prod.fst ∨ k' = k := by
  unfold dictSet at h
  split at h
  · rw [List.map_map] at h
    rcases List.mem_map.mp h with ⟨p, hp, hpk⟩
    by_cases hc : p.1 = k
    · right
      simp only [Function.comp, if_pos hc] at hpk
      exact hpk.symm
    · left
      simp only [Function.comp, if_neg hc] at hpk
      exact hpk ▸ List.mem_map.mpr ⟨p, hp, rfl⟩
  · rw [List.map_append] at h
    rcases List.mem_append.mp h with h | h
    · exact Or.inl h
    · right; simpa using h

theorem lookup_dictDrop_self {V : Type} (m : PyDict V) (k : List Char) :
    List.lookup k (dictDrop m k) = Option.none := by
  unfold dictDrop
  induction m with
  | nil => simp
  | cons p m ih =>
    obtain ⟨a, b⟩ := p
    by_cases hp : a = k
    · rw [List.filter_cons_of_neg (by simpa using hp)]
      exact ih
    · rw [List.filter_cons_of_pos (by simpa using hp)]
      rw [lookup_cons_ne _ a b k (fun hc => hp hc.symm)]
      exact ih

theorem lookup_dictDrop_ne {V : Type} (m : PyDict V) (k k' : List Char)
    (h : k' ≠ k) :
    List.lookup k' (dictDrop m k) = List.lookup k' m := by
  unfold dictDrop
  induction m with
  | nil => simp
  | cons p m ih =>
    obtain ⟨a, b⟩ := p
    by_cases hp : a = k
    · rw [List.filter_cons_of_neg (by simpa using hp)]
      rw [lookup_cons_ne _ a b k' (hp ▸ h)]
      exact ih
    · rw [List.filter_cons_of_pos (by simpa using hp)]
      by_cases hk : k' = a
      · subst hk
        rw [lookup_cons_eq, lookup_cons_eq]
      · rw [lookup_cons_ne _ a b k' hk, lookup_cons_ne _ a b k' hk]
        exact ih

theorem mem_keys_dictDrop {V : Type} (m : PyDict V) (k k' : List Char)
    (h : k' ∈ (dictDrop m k).map Prod.fst) :
    k' ∈ m.map Prod.fst := by
  unfold dictDrop at h
  rcases List.mem_map.mp h with ⟨p, hp, hpk⟩
  exact List.mem_map.mpr ⟨p, List.mem_of_mem_filter hp, hpk⟩

theorem lookup_isSome_iff_mem_keys {V : Type} (m : PyDict V) (k : List Char) :
    (List.lookup k m).isSome ↔ k ∈ m.map Prod.fst := by
  induction m with
  | nil => simp
  | cons p m ih =>
    obtain ⟨a, b⟩ := p
    simp only [List.map_cons, List.mem_cons]
    by_cases hk : k = a
    · subst hk
      rw [lookup_cons_eq]
      simp only [Option.isSome_some, true_iff]
      exact Or.inl trivial
    · rw [lookup_cons_ne _ a b k hk, ih]
      constructor
      · exact Or.inr
      · rintro (h | h)
        · exact absurd h hk
        · exact h

theorem lookup_eq_none_of_not_mem_keys {V : Type} (m : PyDict V) (k : List Char)
    (h : k ∉ m.map Prod.fst) :
    List.lookup k m = Option.none := by
  cases hl : List.lookup k m with
  | none => rfl
  | some v =>
    exact absurd ((lookup_isSome_iff_mem_keys m k).mp (by simp [hl])) h

theorem mem_keys_of_lookup_isSome {V : Type} {m : PyDict V} {k : List Char}
    (h : (List.lookup k m).isSome) : k ∈ m.map Prod.fst :=
  (lookup_isSome_iff_mem_keys m k).mp h

theorem mem_keys_of_lookup_eq_some {V : Type} {m : PyDict V} {k : List Char} {v : V}
    (h : List.lookup k m = some v) : k ∈ m.map Prod.fst :=
  mem_keys_of_lookup_isSome (by simp [h])

/-! ### Decimal digit-string lemmas -/

theorem toNat_ofNat_digit (d : Nat) (h : d ≤ 9) : (Char.ofNat (48 + d)).toNat = 48 + d := by
  interval_cases d <;> decide

theorem natDigits_digits (n : Nat) : ∀ c ∈ natDigits n, 48 ≤ c.toNat ∧ c.toNat ≤ 57 := by
  induction n using Nat.strong_induction_on with
  | _ n ih =>
    rw [natDigits_eq_ite]
    split
    · rename_i h
      intro c hc
      simp only [List.mem_singleton] at hc
      subst hc
      rw [toNat_ofNat_digit n (by omega)]
      omega
    · rename_i h
      intro c hc
      rcases List.mem_append.mp hc with hc | hc
      · exact ih (n / 10) (Nat.div_lt_self (by omega) (by omega)) c hc
      · simp only [List.mem_singleton] at hc
        subst hc
        rw [toNat_ofNat_digit (n % 10) (by omega)]
        omega

theorem natDigits_ne_nil (n : Nat) : natDigits n ≠ [] := by
  rw [natDigits_eq_ite]
  split <;> simp

theorem dash_not_mem_natDigits (n : Nat) : '-' ∉ natDigits n := by
  intro h
  have := natDigits_digits n '-' h
  revert this
  decide

theorem dot_not_mem_natDigits (n : Nat) : '.' ∉ natDigits n := by
  intro h
  have := natDigits_digits n '.' h
  revert this
  decide

theorem natDigits_all_digitChar (n : Nat) : (natDigits n).all isDigitChar = true := by
  rw [List.all_eq_true]
  intro c hc
  have := natDigits_digits n c hc
  simp only [isDigitChar, Bool.and_eq_true, decide_eq_true_eq]
  omega

theorem digitsVal_append_single (l : List Char) (c : Char) :
    digitsVal (l ++ [c]) = 10 * digitsVal l + (c.toNat - 48) := by
  unfold digitsVal
  rw [List.foldl_append]
  rfl

theorem digitsVal_natDigits (n : Nat) : digitsVal (natDigits n) = n := by
  induction n using Nat.strong_induction_on with
  | _ n ih =>
    rw [natDigits_eq_ite]
    split
    · rename_i h
      show digitsVal [Char.ofNat (48 + n)] = n
      unfold digitsVal
      simp only [List.foldl_cons, List.foldl_nil]
      rw [toNat_ofNat_digit n (by omega)]
      omega
    · rename_i h
      rw [digitsVal_append_single, ih (n / 10) (Nat.div_lt_self (by omega) (by omega)),
        toNat_ofNat_digit (n % 10) (by omega)]
      omega

theorem natDigits_inj {m n : Nat} (h : natDigits m = natDigits n) : m = n := by
  have := congrArg digitsVal h
  rwa [digitsVal_natDigits, digitsVal_natDigits] at this

theorem pyInt_natDigits (n : Nat) : pyInt (natDigits n) = .ok n := by
  unfold pyInt
  rw [if_pos ⟨natDigits_ne_nil n, natDigits_all_digitChar n⟩, digitsVal_natDigits]

theorem natDigits_small (n : Nat) (h : n < 10) : natDigits n = [Char.ofNat (48 + n)] := by
  rw [natDigits_eq_ite]
  simp [h]

theorem dash_not_mem_txtChars : '-' ∉ txtChars := by decide

theorem dash_not_mem_shardFile (n : Nat) : '-' ∉ shardFile n := by
  intro h
  rcases List.mem_append.mp h with h | h
  · exact dash_not_mem_natDigits n h
  · exact dash_not_mem_txtChars h

theorem dash_mem_replicaKeyOf (n lvl : Nat) : '-' ∈ replicaKeyOf n lvl := by
  unfold replicaKeyOf
  exact List.mem_append.mpr (Or.inr (List.mem_cons_self _ _))

theorem dash_mem_replicaFileOf (n lvl : Nat) : '-' ∈ replicaFileOf n lvl := by
  unfold replicaFileOf
  exact List.mem_append.mpr (Or.inl (dash_mem_replicaKeyOf n lvl))

theorem shardFile_inj {m n : Nat} (h : shardFile m = shardFile n) : m = n := by
  unfold shardFile at h
  exact natDigits_inj (List.append_inj_left' h (by
    have hm := congrArg List.length h
    simp only [List.length_append] at hm
    omega))

theorem takeWhile_append_stop (p : Char → Bool) (x : Char) (r : List Char)
    (hx : p x = false) :
    ∀ l : List Char, (∀ c ∈ l, p c = true) → ((l ++ x :: r).takeWhile p) = l := by
  intro l
  induction l with
  | nil => intro _; simp [List.takeWhile, hx]
  | cons c l ih =>
    intro h
    rw [List.cons_append, List.takeWhile_cons, h c (List.mem_cons_self _ _)]
    rw [ih (fun d hd => h d (List.mem_cons_of_mem _ hd))]
    simp

theorem takeWhile_dot_shardFile (n : Nat) :
    (shardFile n).takeWhile (fun c => decide (c ≠ '.')) = natDigits n := by
  unfold shardFile txtChars
  show ((natDigits n ++ '.' :: "txt".data).takeWhile fun c => decide (c ≠ '.')) = natDigits n
  apply takeWhile_append_stop _ _ _ (by simp)
  intro c hc
  simp only [decide_eq_true_eq]
  intro hcontra
  exact dot_not_mem_natDigits n (hcontra ▸ hc)

theorem takeWhile_dash_replicaFileOf (n lvl : Nat) :
    (replicaFileOf n lvl).takeWhile (fun c => decide (c ≠ '-')) = natDigits n := by
  unfold replicaFileOf replicaKeyOf
  rw [List.append_assoc]
  show ((natDigits n ++ '-' :: (natDigits lvl ++ txtChars)).takeWhile
    fun c => decide (c ≠ '-')) = natDigits n
  apply takeWhile_append_stop _ _ _ (by simp)
  intro c hc
  simp only [decide_eq_true_eq]
  intro hcontra
  exact dash_not_mem_natDigits n (hcontra ▸ hc)

/-! ### C2: the build(3, "abcdefghij") scenario -/

/-- The state produced by build_shards(3, "abcdefghij") on a fresh handler. -/
def scenarioState : PyState :=
  (((buildShards 3 "abcdefghij".data initState).toOption).map Prod.snd).getD initState

/-- C2 counterexample: build_shards(3, "abcdefghij") succeeds, but shard 0 is
"abc" (3 bytes), not the "abcd" (4 bytes) the claim asserts: the splitter
gives the remainder byte to the last piece, not the first. -/
theorem claim2_scenario_counterexample :
    ((buildShards 3 "abcdefghij".data initState).toOption).map Prod.snd
        = some scenarioState ∧
    List.lookup "0.txt".data scenarioState.disk = some "abc".data ∧
    some "abc".data ≠ some "abcd".data := by
  refine ⟨by decide, by decide, by decide⟩

/-- C2 (amended): for the dataset "abcdefghij" (10 characters),
build_shards(3, data) produces three shard files with sizes 0↦3, 1↦3, 2↦4 and
contents "abc", "def", "ghij", and concatenating the shard files in id order
equals "abcdefghij". -/
theorem claim2_scenario_amended :
    ((buildShards 3 "abcdefghij".data initState).toOption).map Prod.snd
        = some scenarioState ∧
    List.lookup "0.txt".data scenarioState.disk = some "abc".data ∧
    List.lookup "1.txt".data scenarioState.disk = some "def".data ∧
    List.lookup "2.txt".data scenarioState.disk = some "ghij".data ∧
    "abc".data.length = 3 ∧ "def".data.length = 3 ∧ "ghij".data.length = 4 ∧
    reconstructDisk scenarioState 3 = "abcdefghij".data := by
  refine ⟨by decide, by decide, by decide, by decide, by decide, by decide, by decide,
    by decide⟩

/-! ### C4: build_shards is rejected on a non-empty mapping -/

/-- C4: whenever the in-memory mapping is non-empty, build_shards returns the
refusal message and the state — shard files, index entries, persisted map —
is exactly the state it started from. -/
theorem claim4_build_rejected (s : PyState) (count : Nat) (data : List Char)
    (h : s.mapping ≠ []) :
    buildShards count data s = .ok (some alreadyShardedMsg, s) := by
  unfold buildShards
  rw [if_pos h]

theorem claim4_build_rejected_witness :
    buildShards 3 "xy".data
        ⟨[("0".data, ⟨0, 2⟩)], [("0".data, ⟨0, 2⟩)], [("0.txt".data, "ab".data)], 0, 0⟩
      = .ok (some alreadyShardedMsg,
        ⟨[("0".data, ⟨0, 2⟩)], [("0".data, ⟨0, 2⟩)], [("0.txt".data, "ab".data)], 0, 0⟩) :=
  claim4_build_rejected _ 3 "xy".data (by decide)

/-! ### C10: falsy shard ids in get_shard_data -/

/-- C10: a falsy shardnum — None (no argument), the integer 0, or the empty
string — makes get_shard_data return the whole mapping (get_all_shard_data),
and the invalid-id result listing the valid ids only arises for a truthy
argument absent from the mapping. -/
theorem claim10_falsy_get_shard_data (s : PyState) (v : PyVal) :
    (isFalsy v = true → getShardData s v = .allData (getAllShardData s)) ∧
    (∀ ids, getShardData s v = .invalid ids →
      isFalsy v = false ∧ mappingGet s v = Option.none) := by
  constructor
  · intro hv
    unfold getShardData getAllShardData
    rw [if_pos hv]
  · intro ids h
    unfold getShardData at h
    by_cases hv : isFalsy v
    · rw [if_pos hv] at h
      exact absurd h (by simp)
    · rw [if_neg hv] at h
      refine ⟨by simpa using hv, ?_⟩
      cases hg : mappingGet s v with
      | none => rfl
      | some e =>
        rw [hg] at h
        exact absurd h (by simp)

theorem claim10_falsy_get_shard_data_witness :
    getShardData ⟨[("0".data, ⟨0, 2⟩)], [], [], 0, 0⟩ (PyVal.pyIntV 0)
      = .allData (getAllShardData ⟨[("0".data, ⟨0, 2⟩)], [], [], 0, 0⟩) :=
  (claim10_falsy_get_shard_data ⟨[("0".data, ⟨0, 2⟩)], [], [], 0, 0⟩ (PyVal.pyIntV 0)).1
    (by decide)

/-! ### The shard-writing loop and the +1-gap convention (C3) -/

/-- The tail of the writing loop starting at shard index j. -/
def writeShardsFrom (s : PyState) (j : Nat) (pieces : List (List Char)) : PyState :=
  (pieces.enumFrom j).foldl (fun st p => writeShard st p.1 p.2) s

/-- Total length of the first i pieces. -/
def prefixLen (pieces : List (List Char)) (i : Nat) : Nat :=
  ((pieces.take i).map List.length).sum

theorem prefixLen_zero (pieces : List (List Char)) : prefixLen pieces 0 = 0 := rfl

theorem prefixLen_cons (d : List Char) (rest : List (List Char)) (i : Nat) :
    prefixLen (d :: rest) (i + 1) = d.length + prefixLen rest i := by
  unfold prefixLen
  rw [List.take_succ_cons, List.map_cons, List.sum_cons]

theorem prefixLen_succ_getD (pieces : List (List Char)) :
    ∀ i, i < pieces.length →
      prefixLen pieces (i + 1) = prefixLen pieces i + (pieces.getD i []).length := by
  induction pieces with
  | nil => intro i h; simp at h
  | cons d rest ih =>
    intro i h
    cases i with
    | zero => simp [prefixLen_cons, prefixLen_zero]
    | succ i =>
      rw [prefixLen_cons, prefixLen_cons, ih i (by simpa using h), List.getD_cons_succ]
      omega

theorem writeShard_of_pos_ne (st : PyState) (j : Nat) (d : List Char)
    (hj : j ≠ 0) (hpos : st.lastCharPosition ≠ 0) :
    writeShard st j d =
      { st with
          disk := dictSet st.disk (shardFile j) d,
          mapping := dictSet st.mapping (natDigits j)
            ⟨st.lastCharPosition + 1, st.lastCharPosition + d.length⟩,
          lastCharPosition := st.lastCharPosition + d.length } := by
  unfold writeShard writeShardMapping
  simp [hj, hpos]

theorem writeShard_zero (st : PyState) (d : List Char) :
    writeShard st 0 d =
      { st with
          disk := dictSet st.disk (shardFile 0) d,
          mapping := dictSet st.mapping (natDigits 0) ⟨0, d.length⟩,
          lastCharPosition := d.length } := by
  unfold writeShard writeShardMapping
  simp

theorem writeShardsFrom_spec :
    ∀ (rest : List (List Char)) (j : Nat) (st : PyState), 1 ≤ j →
      st.lastCharPosition ≠ 0 →
      (∀ d ∈ rest, d ≠ []) →
      (writeShardsFrom st j rest).lastCharPosition
          = st.lastCharPosition + prefixLen rest rest.length ∧
      (∀ i, i < rest.length →
        List.lookup (natDigits (j + i)) (writeShardsFrom st j rest).mapping
          = some ⟨st.lastCharPosition + prefixLen rest i + 1,
              st.lastCharPosition + prefixLen rest (i + 1)⟩) ∧
      (∀ k, (∀ i, i < rest.length → k ≠ natDigits (j + i)) →
        List.lookup k (writeShardsFrom st j rest).mapping = List.lookup k st.mapping) := by
  intro rest
  induction rest with
  | nil =>
    intro j st hj hpos hne
    refine ⟨by simp [writeShardsFrom, prefixLen], ?_, ?_⟩
    · intro i h; simp at h
    · intro k _; rfl
  | cons d rest ih =>
    intro j st hj hpos hne
    have hd : d ≠ [] := hne d (List.mem_cons_self _ _)
    have hdlen : d.length ≠ 0 := by
      intro hc; exact hd (List.length_eq_zero.mp hc)
    have hstep : writeShardsFrom st j (d :: rest)
        = writeShardsFrom (writeShard st j d) (j + 1) rest := rfl
    have hsh := writeShard_of_pos_ne st j d (by omega) hpos
    have hpos1 : (writeShard st j d).lastCharPosition = st.lastCharPosition + d.length := by
      rw [hsh]
    have hmap1 : (writeShard st j d).mapping
        = dictSet st.mapping (natDigits j)
            ⟨st.lastCharPosition + 1, st.lastCharPosition + d.length⟩ := by
      rw [hsh]
    obtain ⟨ihpos, ihlook, ihpres⟩ :=
      ih (j + 1) (writeShard st j d) (by omega) (by rw [hpos1]; omega)
        (fun x hx => hne x (List.mem_cons_of_mem _ hx))
    refine ⟨?_, ?_, ?_⟩
    · rw [hstep, ihpos, hpos1, List.length_cons, prefixLen_cons]
      omega
    · intro i hi
      cases i with
      | zero =>
        simp only [Nat.add_zero]
        rw [hstep, ihpres (natDigits j) ?ne]
        case ne =>
          intro i' hi' hc
          have := natDigits_inj hc
          omega
        rw [hmap1, lookup_dictSet_self]
        rw [prefixLen_zero, prefixLen_cons, prefixLen_zero]
        simp
      | succ i =>
        have hji : j + (i + 1) = j + 1 + i := by omega
        rw [hstep, hji, ihlook i (by simpa using hi), hpos1,
          prefixLen_cons, prefixLen_cons]
        simp only [Option.some.injEq, Entry.mk.injEq]
        omega
    · intro k hk
      rw [hstep, ihpres k ?pres, hmap1, lookup_dictSet_ne]
      case pres =>
        intro i hi
        have : (i + 1) < (d :: rest).length := by simpa using hi
        have := hk (i + 1) this
        rwa [show j + (i + 1) = j + 1 + i by omega] at this
      exact hk 0 (by simp)

theorem writeShards_mapping_gap (pieces : List (List Char)) (s : PyState)
    (hne : ∀ d ∈ pieces, d ≠ []) (h0 : pieces ≠ []) :
    ∀ i, i < pieces.length →
      List.lookup (natDigits i) (writeShards s pieces).mapping
        = some ⟨if i = 0 then 0 else prefixLen pieces i + 1, prefixLen pieces (i + 1)⟩ := by
  obtain ⟨d, rest, rfl⟩ := List.exists_cons_of_ne_nil h0
  have hd : d ≠ [] := hne d (List.mem_cons_self _ _)
  have hdlen : d.length ≠ 0 := by
    intro hc; exact hd (List.length_eq_zero.mp hc)
  have hws : writeShards s (d :: rest) = writeShardsFrom (writeShard s 0 d) 1 rest := rfl
  have hsh := writeShard_zero s d
  have hpos1 : (writeShard s 0 d).lastCharPosition = d.length := by rw [hsh]
  have hmap1 : (writeShard s 0 d).mapping
      = dictSet s.mapping (natDigits 0) ⟨0, d.length⟩ := by rw [hsh]
  obtain ⟨ihpos, ihlook, ihpres⟩ :=
    writeShardsFrom_spec rest 1 (writeShard s 0 d) (by omega) (by rw [hpos1]; omega)
      (fun x hx => hne x (List.mem_cons_of_mem _ hx))
  intro i hi
  cases i with
  | zero =>
    rw [hws, ihpres (natDigits 0) ?ne]
    case ne =>
      intro i' hi' hc
      have := natDigits_inj hc
      omega
    rw [hmap1, lookup_dictSet_self, if_pos rfl, prefixLen_cons, prefixLen_zero]
    simp
  | succ i =>
    have hlook := ihlook i (by simpa using hi)
    rw [show (1 : Nat) + i = i + 1 from by omega] at hlook
    rw [hws, hlook, hpos1, if_neg (by omega), prefixLen_cons, prefixLen_cons]

theorem generateShardedData_pieces_ne_nil (count : Nat) (data : List Char)
    (h1 : 1 ≤ count) (h2 : count ≤ data.length) :
    ∀ d ∈ generateShardedData count data, d ≠ [] := by
  intro d hd
  rcases List.mem_iff_getElem.mp hd with ⟨i, hilen, hget⟩
  rw [generateShardedData_length] at hilen
  have hb : 1 ≤ data.length / count := (Nat.one_le_div_iff (by omega)).mpr h2
  have hgetD : (generateShardedData count data).getD i [] = d := by
    rw [List.getD_eq_getElem _ _ (by rw [generateShardedData_length]; exact hilen)]
    exact hget
  intro hnil
  subst hnil
  by_cases hlast : i + 1 < count
  · have := generateShardedData_piece_length count data i h2 hlast
    rw [hgetD] at this
    simp at this
    omega
  · have hieq : i = count - 1 := by omega
    subst hieq
    have := generateShardedData_last_length count data h1 h2
    rw [hgetD] at this
    simp at this
    omega

/-- C3 (amended): after a structural write of count primary shards in which
every written piece is nonempty — which holds exactly when count does not
exceed the dataset length, as in every in-range build_shards, add_shard and
remove_shard — the entries keyed 0..count-1, in numeric order, satisfy the
+1-gap convention: entry 0 starts at 0, entry i starts at entry (i-1)'s end
plus one, and for i ≥ 1 entry i spans end - start + 1 = len(piece i) bytes.
Without that proviso the convention is broken (see the counterexample): an
empty piece leaves last_char_position at 0 and the next start loses its +1. -/
theorem claim3_gap_amended (s : PyState) (data : List Char) (count : Nat)
    (h1 : 1 ≤ count) (h2 : count ≤ data.length) :
    (∃ e, List.lookup (natDigits 0)
        (writeShards s (generateShardedData count data)).mapping = some e ∧
      e.start = 0) ∧
    (∀ i, 1 ≤ i → i < count →
      ∃ e e', List.lookup (natDigits i)
          (writeShards s (generateShardedData count data)).mapping = some e ∧
        List.lookup (natDigits (i - 1))
          (writeShards s (generateShardedData count data)).mapping = some e' ∧
        e.start = e'.stop + 1 ∧
        e.stop - e.start + 1 = ((generateShardedData count data).getD i []).length) := by
  have hlen := generateShardedData_length count data
  have hne := generateShardedData_pieces_ne_nil count data h1 h2
  have h0 : generateShardedData count data ≠ [] := by
    intro hc
    rw [hc] at hlen
    simp at hlen
    omega
  have hgap := writeShards_mapping_gap (generateShardedData count data) s hne h0
  constructor
  · refine ⟨_, hgap 0 (by omega), ?_⟩
    rw [if_pos rfl]
  · intro i hi1 hi2
    obtain ⟨k, rfl⟩ : ∃ k, i = k + 1 := ⟨i - 1, by omega⟩
    have hk1 := hgap (k + 1) (by omega)
    have hk0 : List.lookup (natDigits (k + 1 - 1))
        (writeShards s (generateShardedData count data)).mapping
        = some ⟨if k = 0 then 0 else prefixLen (generateShardedData count data) k + 1,
            prefixLen (generateShardedData count data) (k + 1)⟩ := by
      have hsub : k + 1 - 1 = k := by omega
      rw [hsub]
      exact hgap k (by omega)
    have hplen := prefixLen_succ_getD (generateShardedData count data) (k + 1)
      (by omega)
    have hpos : 1 ≤ ((generateShardedData count data).getD (k + 1) []).length := by
      have hmem : (generateShardedData count data).getD (k + 1) []
          ∈ generateShardedData count data := by
        rw [List.getD_eq_getElem _ _ (by omega)]
        exact List.getElem_mem _
      have hx := hne _ hmem
      cases hl : ((generateShardedData count data).getD (k + 1) []).length with
      | zero => exact absurd (List.length_eq_zero.mp hl) hx
      | succ n => omega
    refine ⟨⟨if k + 1 = 0 then 0 else prefixLen (generateShardedData count data) (k + 1) + 1,
        prefixLen (generateShardedData count data) (k + 1 + 1)⟩,
      ⟨if k = 0 then 0 else prefixLen (generateShardedData count data) k + 1,
        prefixLen (generateShardedData count data) (k + 1)⟩,
      hk1, hk0, ?_, ?_⟩
    · show (if k + 1 = 0 then 0 else prefixLen (generateShardedData count data) (k + 1) + 1)
        = prefixLen (generateShardedData count data) (k + 1) + 1
      rw [if_neg (by omega)]
    · show prefixLen (generateShardedData count data) (k + 1 + 1)
          - (if k + 1 = 0 then 0 else prefixLen (generateShardedData count data) (k + 1) + 1)
          + 1
        = ((generateShardedData count data).getD (k + 1) []).length
      rw [if_neg (by omega)]
      omega

theorem claim3_gap_amended_witness :
    (∃ e, List.lookup (natDigits 0)
        (writeShards initState (generateShardedData 2 "ab".data)).mapping = some e ∧
      e.start = 0) ∧
    (∀ i, 1 ≤ i → i < 2 →
      ∃ e e', List.lookup (natDigits i)
          (writeShards initState (generateShardedData 2 "ab".data)).mapping = some e ∧
        List.lookup (natDigits (i - 1))
          (writeShards initState (generateShardedData 2 "ab".data)).mapping = some e' ∧
        e.start = e'.stop + 1 ∧
        e.stop - e.start + 1 = ((generateShardedData 2 "ab".data).getD i []).length) :=
  claim3_gap_amended initState "ab".data 2 (by decide) (by decide)

/-- The two-shard state reached by build_shards(1, "a") followed by
add_shard(). -/
def tinyAddState : PyState :=
  (okState (addShard ((((buildShards 1 "a".data initState).toOption).map Prod.snd).getD
    initState))).getD initState

/-- C3 counterexample: build_shards(1, "a") followed by add_shard() is a
successful structural write of 2 primary shards, yet it leaves entries
0 ↦ {start 0, end 0} and 1 ↦ {start 0, end 1}: entry 1's start is 0, not
entry 0's end + 1 = 1 (the empty piece written as shard 0 leaves
last_char_position at 0, so the +1 offset is skipped), and entry 1 spans
end - start + 1 = 2 bytes while piece 1 is the single byte "a". -/
theorem claim3_gap_counterexample :
    okState (addShard ((((buildShards 1 "a".data initState).toOption).map Prod.snd).getD
        initState)) = some tinyAddState ∧
    List.lookup "0".data tinyAddState.mapping = some ⟨0, 0⟩ ∧
    List.lookup "1".data tinyAddState.mapping = some ⟨0, 1⟩ ∧
    (⟨0, 1⟩ : Entry).start ≠ (⟨0, 0⟩ : Entry).stop + 1 := by
  refine ⟨by decide, by decide, by decide, by decide⟩

/-! ### Counterexample states for C5-C9 -/

/-- An 11-shard setup built from the 11-character dataset "abcdefghijk":
shard i holds the i-th character. -/
def elevenState : PyState :=
  (((buildShards 11 "abcdefghijk".data initState).toOption).map Prod.snd).getD initState

/-- The state after add_shard() on the 11-shard setup. -/
def elevenAddState : PyState := (okState (addShard elevenState)).getD initState

/-- C5 counterexample: on the 11-shard setup holding dataset "abcdefghijk",
add_shard() succeeds, but reconstructing by concatenating primary shard
contents in ascending numeric shard-id order afterwards yields "abkcdefghij",
not the original dataset: add_shard reads the shards back in sorted *string*
order, which places shard "10" between "1" and "2" and scrambles the data. -/
theorem claim5_addshard_counterexample :
    reconstructDisk elevenState 11 = "abcdefghijk".data ∧
    okState (addShard elevenState) = some elevenAddState ∧
    reconstructDisk elevenAddState 12 = "abkcdefghij".data ∧
    "abkcdefghij".data ≠ "abcdefghijk".data := by
  refine ⟨by decide, by decide, by decide, by decide⟩

/-- The 2-shard setup over "ab" with one replication level. -/
def twoRepState : PyState :=
  (okState (addReplication
    ((((buildShards 2 "ab".data initState).toOption).map Prod.snd).getD initState))).getD
    initState

/-- The state after remove_shard() on that setup. -/
def removedState : PyState := (okState (removeShard twoRepState)).getD initState

/-- C6 counterexample: remove_shard() on the replicated 2-shard setup deletes
shard 1's primary file and replica file, but the mapping (and the persisted
map) still contains the IndexEntry "1-1" of the removed shard's replica: the
mapping-cleanup loop pops only the key str(max id), never the replica keys. -/
theorem claim6_removeshard_counterexample :
    okState (removeShard twoRepState) = some removedState ∧
    List.lookup "1.txt".data removedState.disk = Option.none ∧
    List.lookup "1-1.txt".data removedState.disk = Option.none ∧
    List.lookup "1-1".data removedState.mapping = some ⟨2, 2⟩ ∧
    List.lookup "1-1".data removedState.mapfile = some ⟨2, 2⟩ ∧
    (some (⟨2, 2⟩ : Entry) ≠ Option.none) := by
  refine ⟨by decide, by decide, by decide, by decide, by decide, by decide⟩

/-- The state after add_replication() on the 11-shard setup. -/
def elevenRepState : PyState := (okState (addReplication elevenState)).getD initState

/-- C7 counterexample: add_replication() on the 11-shard depth-0 setup
succeeds but creates only 10 replica files, not 11, and replica "1-1" holds
shard 10's byte "k" instead of shard 1's byte "b": the operation keys both
copies by the file name's first character, so "10.txt" is replicated onto
"1-1.txt". -/
theorem claim7_addreplication_counterexample :
    okState (addReplication elevenState) = some elevenRepState ∧
    ((elevenRepState.disk.map Prod.fst).filter (fun f => decide ('-' ∈ f))).length = 10 ∧
    ((10 : Nat) ≠ 11) ∧
    List.lookup "1-1.txt".data elevenRepState.disk = some "k".data ∧
    List.lookup "1.txt".data elevenRepState.disk = some "b".data ∧
    "k".data ≠ "b".data := by
  refine ⟨by decide, by decide, by decide, by decide, by decide, by decide⟩

/-- A 1-shard setup over "ab" after two add_replication() calls. -/
def oneShardDepth2State : PyState :=
  (okState (addReplication ((okState (addReplication
    ((((buildShards 1 "ab".data initState).toOption).map Prod.snd).getD initState))).getD
    initState))).getD initState

/-- The state after the first remove_replication(). -/
def afterFirstRemove : PyState :=
  (okState (removeReplication oneShardDepth2State)).getD initState

/-- The state after a second remove_replication(). -/
def afterSecondRemove : PyState :=
  (okState (removeReplication afterFirstRemove)).getD initState

/-- C8 counterexample: after removing replication level 2, the deepest level
present among the replica ids is 1 — yet a second remove_replication() call
succeeds without deleting anything: replica file 0-1.txt and its IndexEntry
survive, because the call uses the stale in-memory replication_level counter
(still 2) instead of the deepest level actually present. -/
theorem claim8_removereplication_counterexample :
    getReplicationIds afterFirstRemove = ["0-1".data] ∧
    findHighestReplicationLevel afterFirstRemove = 1 ∧
    afterFirstRemove.replicationLevel = 2 ∧
    okState (removeReplication afterFirstRemove) = some afterSecondRemove ∧
    List.lookup "0-1.txt".data afterSecondRemove.disk = some "ab".data ∧
    List.lookup "0-1".data afterSecondRemove.mapping = some ⟨0, 2⟩ ∧
    (some "ab".data ≠ (Option.none : Option (List Char))) := by
  refine ⟨by decide, by decide, by decide, by decide, by decide, by decide, by decide⟩

/-- A state whose index and files use a two-character shard id "10":
primaries "1" ↦ "a" and "10" ↦ "bc", plus a replica "10-1" of shard 10. -/
def multiDigitState : PyState :=
  ⟨[("1".data, ⟨0, 0⟩), ("10".data, ⟨1, 2⟩), ("10-1".data, ⟨1, 2⟩)],
   [("1".data, ⟨0, 0⟩), ("10".data, ⟨1, 2⟩), ("10-1".data, ⟨1, 2⟩)],
   [("1.txt".data, "a".data), ("10.txt".data, "bc".data), ("10-1.txt".data, "bc".data)],
   0, 1⟩

/-- The state after one sync_replication() on `multiDigitState`. -/
def multiDigitSync1 : PyState := (okState (syncReplication multiDigitState)).getD initState

/-- The state after a second sync_replication(). -/
def multiDigitSync2 : PyState := (okState (syncReplication multiDigitSync1)).getD initState

/-- C9 counterexample: sync_replication is not idempotent.  On
`multiDigitState` the first call succeeds and leaves 10.txt = "bc"; the
second call, with no intervening mutation, overwrites 10.txt with "a": the
repair pass compares ids by their first character only, so shard "10" is
always deemed missing and replica "10-1" — itself rewritten from "1.txt" by
the first call — is copied over it. -/
theorem claim9_sync_counterexample :
    okState (syncReplication multiDigitState) = some multiDigitSync1 ∧
    okState (syncReplication multiDigitSync1) = some multiDigitSync2 ∧
    List.lookup "10.txt".data multiDigitSync1.disk = some "bc".data ∧
    List.lookup "10.txt".data multiDigitSync2.disk = some "a".data ∧
    "bc".data ≠ "a".data := by
  refine ⟨by decide, by decide, by decide, by decide, by decide⟩

/-! ### Helper lemmas about keys, sorting and heads -/

theorem mem_keys_dictSet_mono {V : Type} (m : PyDict V) (k k' : List Char) (v : V)
    (h : k' ∈ m.map Prod.fst) : k' ∈ (dictSet m k v).map Prod.fst := by
  unfold dictSet
  split
  · rcases List.mem_map.mp h with ⟨p, hp, hpk⟩
    apply List.mem_map.mpr
    refine ⟨if p.1 = k then (k, v) else p, List.mem_map.mpr ⟨p, hp, rfl⟩, ?_⟩
    by_cases hc : p.1 = k
    · rw [if_pos hc]
      rw [← hpk, hc]
    · rw [if_neg hc]
      exact hpk
  · rw [List.map_append]
    exact List.mem_append.mpr (Or.inl h)

theorem mem_insertSorted (x k : List Char) :
    ∀ l : List (List Char), (k ∈ insertSorted x l ↔ k = x ∨ k ∈ l) := by
  intro l
  induction l with
  | nil => simp [insertSorted]
  | cons y ys ih =>
    unfold insertSorted
    by_cases h : pyLe x y
    · simp [h]
    · simp only [if_neg h, List.mem_cons, ih]
      tauto

theorem mem_pySorted (k : List Char) :
    ∀ l : List (List Char), (k ∈ pySorted l ↔ k ∈ l) := by
  intro l
  induction l with
  | nil => simp [pySorted]
  | cons y ys ih =>
    show k ∈ insertSorted y (pySorted ys) ↔ _
    rw [mem_insertSorted, ih]
    simp

theorem mem_getShardIds_iff (s : PyState) (k : List Char) :
    k ∈ getShardIds s ↔ k ∈ s.mapping.map Prod.fst ∧ '-' ∉ k := by
  unfold getShardIds
  rw [mem_pySorted, List.mem_filter]
  simp

theorem mem_getReplicationIds_iff (s : PyState) (k : List Char) :
    k ∈ getReplicationIds s ↔ k ∈ s.mapping.map Prod.fst ∧ '-' ∈ k := by
  unfold getReplicationIds
  rw [mem_pySorted, List.mem_filter]
  simp

theorem mem_primaryHeads_iff (s : PyState) (id : List Char) :
    id ∈ primaryHeads s ↔
      ∃ f, f ∈ s.disk.map Prod.fst ∧ '-' ∉ f ∧ [f.headD '?'] = id := by
  unfold primaryHeads listdir
  constructor
  · intro h
    rcases List.mem_map.mp h with ⟨f, hf, hfk⟩
    rcases List.mem_filter.mp hf with ⟨hf1, hf2⟩
    exact ⟨f, hf1, by simpa using hf2, hfk⟩
  · rintro ⟨f, hf1, hf2, hfk⟩
    exact List.mem_map.mpr ⟨f, List.mem_filter.mpr ⟨hf1, by simpa using hf2⟩, hfk⟩

theorem primaryHeads_mono {s t : PyState}
    (h : ∀ name, name ∈ s.disk.map Prod.fst → name ∈ t.disk.map Prod.fst)
    {id : List Char} (hid : id ∈ primaryHeads s) : id ∈ primaryHeads t := by
  rcases (mem_primaryHeads_iff s id).mp hid with ⟨f, hf1, hf2, hfk⟩
  exact (mem_primaryHeads_iff t id).mpr ⟨f, h f hf1, hf2, hfk⟩

theorem mem_primaryHeads_length {s : PyState} {id : List Char}
    (h : id ∈ primaryHeads s) : id.length = 1 := by
  rcases (mem_primaryHeads_iff s id).mp h with ⟨f, _, _, hfk⟩
  rw [← hfk]
  rfl

/-! ### verify_primaries fold lemmas -/

theorem primaryRepairStep_ok_cases {pids : List (List Char)} {st : PyState}
    {id : List Char} {t : PyState} (h : primaryRepairStep pids st id = .ok t) :
    (id ∈ pids ∧ t = st) ∨
    (id ∉ pids ∧ ∃ content,
      List.lookup (id ++ '-' :: natDigits (findHighestReplicationLevel st) ++ txtChars)
          st.disk = some content ∧
      t = { st with disk := dictSet st.disk (id ++ txtChars) content }) := by
  unfold primaryRepairStep at h
  split at h
  · left
    refine ⟨by assumption, ?_⟩
    cases h
    rfl
  · right
    rename_i hmem
    refine ⟨hmem, ?_⟩
    split at h
    · rename_i content hcontent
      cases h
      exact ⟨content, hcontent, rfl⟩
    · cases h

theorem vpFold_basic (pids : List (List Char)) :
    ∀ (ids : List (List Char)) (st t : PyState),
      List.foldlM (primaryRepairStep pids) st ids = .ok t →
      t.mapping = st.mapping ∧ t.mapfile = st.mapfile ∧
      t.lastCharPosition = st.lastCharPosition ∧
      t.replicationLevel = st.replicationLevel ∧
      (∀ name, (∀ id ∈ ids, name ≠ id ++ txtChars) →
        List.lookup name t.disk = List.lookup name st.disk) ∧
      (∀ name, name ∈ t.disk.map Prod.fst →
        name ∈ st.disk.map Prod.fst ∨ ∃ id ∈ ids, name = id ++ txtChars) ∧
      (∀ name, name ∈ st.disk.map Prod.fst → name ∈ t.disk.map Prod.fst) := by
  intro ids
  induction ids with
  | nil =>
    intro st t h
    simp only [List.foldlM_nil] at h
    cases h
    exact ⟨rfl, rfl, rfl, rfl, fun _ _ => rfl, fun name hn => Or.inl hn, fun _ hn => hn⟩
  | cons id ids ih =>
    intro st t h
    rw [List.foldlM_cons] at h
    cases hstep : primaryRepairStep pids st id with
    | error e => rw [hstep] at h; cases h
    | ok st1 =>
      rw [hstep] at h
      have h' : List.foldlM (primaryRepairStep pids) st1 ids = .ok t := h
      obtain ⟨ihm, ihf, ihp, ihr, ihlook, ihkeys, ihmono⟩ := ih st1 t h'
      rcases primaryRepairStep_ok_cases hstep with ⟨_, rfl⟩ | ⟨_, content, hcontent, rfl⟩
      · refine ⟨ihm, ihf, ihp, ihr, ?_, ?_, ihmono⟩
        · intro name hn
          exact ihlook name (fun i hi => hn i (List.mem_cons_of_mem _ hi))
        · intro name hn
          rcases ihkeys name hn with hk | ⟨i, hi, hk⟩
          · exact Or.inl hk
          · exact Or.inr ⟨i, List.mem_cons_of_mem _ hi, hk⟩
      · refine ⟨ihm, ihf, ihp, ihr, ?_, ?_, ?_⟩
        · intro name hn
          rw [ihlook name (fun i hi => hn i (List.mem_cons_of_mem _ hi))]
          show List.lookup name (dictSet st.disk (id ++ txtChars) content)
            = List.lookup name st.disk
          exact lookup_dictSet_ne _ _ _ _ (hn id (List.mem_cons_self _ _))
        · intro name hn
          rcases ihkeys name hn with hk | ⟨i, hi, hk⟩
          · rcases mem_keys_dictSet st.disk (id ++ txtChars) name content hk with hk | hk
            · exact Or.inl hk
            · exact Or.inr ⟨id, List.mem_cons_self _ _, hk⟩
          · exact Or.inr ⟨i, List.mem_cons_of_mem _ hi, hk⟩
        · intro name hn
          exact ihmono name (mem_keys_dictSet_mono _ _ _ _ hn)

theorem vpFold_identity (pids : List (List Char)) :
    ∀ (ids : List (List Char)) (st : PyState), (∀ id ∈ ids, id ∈ pids) →
      List.foldlM (primaryRepairStep pids) st ids = .ok st := by
  intro ids
  induction ids with
  | nil => intro st _; rfl
  | cons id ids ih =>
    intro st h
    rw [List.foldlM_cons]
    have hstep : primaryRepairStep pids st id = .ok st := by
      unfold primaryRepairStep
      rw [if_pos (h id (List.mem_cons_self _ _))]
      rfl
    rw [hstep]
    exact ih st (fun i hi => h i (List.mem_cons_of_mem _ hi))

theorem vpFold_error (pids : List (List Char)) (bad : List Char) (e : PyErr) :
    ∀ (ids : List (List Char)) (st : PyState),
      (∀ id ∈ ids, id ∈ pids ∨ id = bad) → bad ∈ ids →
      primaryRepairStep pids st bad = .error e →
      List.foldlM (primaryRepairStep pids) st ids = .error e := by
  intro ids
  induction ids with
  | nil => intro st _ hbad; simp at hbad
  | cons id ids ih =>
    intro st hall hbad hstep
    rw [List.foldlM_cons]
    by_cases hid : id ∈ pids
    · have hpure : primaryRepairStep pids st id = .ok st := by
        unfold primaryRepairStep
        rw [if_pos hid]
        rfl
      rw [hpure]
      have hne : id ≠ bad := by
        intro hc
        subst hc
        rw [hpure] at hstep
        cases hstep
      have hbad' : bad ∈ ids := by
        rcases List.mem_cons.mp hbad with hc | hc
        · exact absurd hc.symm hne
        · exact hc
      exact ih st (fun i hi => hall i (List.mem_cons_of_mem _ hi)) hbad' hstep
    · have hid' : id = bad := by
        rcases hall id (List.mem_cons_self _ _) with hc | hc
        · exact absurd hc hid
        · exact hc
      subst hid'
      rw [hstep]
      rfl

theorem vpFold_presence (pids : List (List Char)) :
    ∀ (ids : List (List Char)) (st t : PyState),
      (∀ id ∈ ids, id.length = 1 ∧ '-' ∉ id) →
      (∀ id ∈ ids, id ∈ pids → id ∈ primaryHeads st) →
      List.foldlM (primaryRepairStep pids) st ids = .ok t →
      ∀ id ∈ ids, id ∈ primaryHeads t := by
  intro ids
  induction ids with
  | nil => intro st t _ _ _ id hid; simp at hid
  | cons id0 ids ih =>
    intro st t hshape hpids h
    rw [List.foldlM_cons] at h
    cases hstep : primaryRepairStep pids st id0 with
    | error e => rw [hstep] at h; cases h
    | ok st1 =>
      rw [hstep] at h
      obtain ⟨_, _, _, _, _, _, ihmono⟩ := vpFold_basic pids ids st1 t h
      have hkeysmono : ∀ name, name ∈ st.disk.map Prod.fst →
          name ∈ st1.disk.map Prod.fst := by
        rcases primaryRepairStep_ok_cases hstep with ⟨_, rfl⟩ | ⟨_, c, _, rfl⟩
        · intro name hn; exact hn
        · intro name hn
          exact mem_keys_dictSet_mono _ _ _ _ hn
      have hid0 : id0 ∈ primaryHeads st1 := by
        rcases primaryRepairStep_ok_cases hstep with ⟨hin, rfl⟩ | ⟨hout, c, hc, rfl⟩
        · exact hpids id0 (List.mem_cons_self _ _) hin
        · obtain ⟨hlen, hdash⟩ := hshape id0 (List.mem_cons_self _ _)
          obtain ⟨ch, rfl⟩ : ∃ ch, id0 = [ch] := by
            cases id0 with
            | nil => simp at hlen
            | cons a rest =>
              cases rest with
              | nil => exact ⟨a, rfl⟩
              | cons b r => simp at hlen
          apply (mem_primaryHeads_iff _ _).mpr
          refine ⟨[ch] ++ txtChars, ?_, ?_, rfl⟩
          · apply mem_keys_of_lookup_isSome
            show (List.lookup ([ch] ++ txtChars)
              (dictSet st.disk ([ch] ++ txtChars) c)).isSome
            rw [lookup_dictSet_self]
            rfl
          · intro hcontra
            rcases List.mem_append.mp hcontra with hc2 | hc2
            · exact hdash hc2
            · exact dash_not_mem_txtChars hc2
      refine fun id hid => ?_
      rcases List.mem_cons.mp hid with rfl | hid'
      · exact primaryHeads_mono ihmono hid0
      · exact ih st1 t (fun i hi => hshape i (List.mem_cons_of_mem _ hi))
          (fun i hi hp => primaryHeads_mono hkeysmono (hpids i (List.mem_cons_of_mem _ hi) hp))
          h id hid'

/-! ### verify_replications fold lemmas -/

/-- Size agreement between a replica file and the primary file designated by
the replica name's first character, the property the repair pass enforces. -/
def sizeMatch (st : PyState) (r : List Char) : Prop :=
  ∃ cp cr, List.lookup ([r.headD '?'] ++ txtChars) st.disk = some cp ∧
    List.lookup r st.disk = some cr ∧ cp.length = cr.length

theorem replicaRepairStep_ok_cases {st : PyState} {r : List Char} {t : PyState}
    (h : replicaRepairStep st r = .ok t) :
    ∃ cp cr, List.lookup ([r.headD '?'] ++ txtChars) st.disk = some cp ∧
      List.lookup r st.disk = some cr ∧
      ((cp.length = cr.length ∧ t = st) ∨
       (cp.length ≠ cr.length ∧ ∃ content,
         List.lookup ([r.headD '?'] ++ txtChars) (dictDrop st.disk r) = some content ∧
         t = { st with disk := dictSet (dictDrop st.disk r) r content })) := by
  unfold replicaRepairStep at h
  simp only [] at h
  cases hp : List.lookup ([r.headD '?'] ++ txtChars) st.disk with
  | none =>
    rw [hp] at h
    cases h
  | some cp =>
    rw [hp] at h
    cases hr : List.lookup r st.disk with
    | none =>
      rw [hr] at h
      cases h
    | some cr =>
      rw [hr] at h
      refine ⟨cp, cr, rfl, rfl, ?_⟩
      have h2 : (if cp.length = cr.length then (pure st : Except PyErr PyState)
          else
            (let st' := if (some cr : Option (List Char)).isSome then
                { st with disk := dictDrop st.disk r } else st
             match List.lookup ([r.headD '?'] ++ txtChars) st'.disk with
             | some content => pure { st' with disk := dictSet st'.disk r content }
             | none => Except.error PyErr.fileNotFound)) = .ok t := h
      by_cases hsz : cp.length = cr.length
      · rw [if_pos hsz] at h2
        left
        exact ⟨hsz, by cases h2; rfl⟩
      · rw [if_neg hsz] at h2
        right
        refine ⟨hsz, ?_⟩
        simp only [Option.isSome_some, if_true] at h2
        cases hc : List.lookup ([r.headD '?'] ++ txtChars) (dictDrop st.disk r) with
        | none =>
          rw [hc] at h2
          cases h2
        | some content =>
          rw [hc] at h2
          exact ⟨content, rfl, by cases h2; rfl⟩

theorem replicaRepairStep_of_sizeMatch {st : PyState} {r : List Char}
    (h : sizeMatch st r) : replicaRepairStep st r = .ok st := by
  obtain ⟨cp, cr, hp, hr, hlen⟩ := h
  unfold replicaRepairStep
  simp only [hp, hr]
  rw [if_pos hlen]
  rfl

theorem dash_not_mem_headTxt {r : List Char} (h : r.headD '?' ≠ '-') :
    '-' ∉ [r.headD '?'] ++ txtChars := by
  intro hc
  rcases List.mem_append.mp hc with hc | hc
  · simp only [List.mem_singleton] at hc
    exact h hc.symm
  · exact dash_not_mem_txtChars hc

theorem sizeMatch_post_step {st t : PyState} {r : List Char}
    (hstep : replicaRepairStep st r = .ok t)
    (hrdash : '-' ∈ r) (hrhead : r.headD '?' ≠ '-') : sizeMatch t r := by
  have hprim : [r.headD '?'] ++ txtChars ≠ r := by
    intro hc
    exact dash_not_mem_headTxt hrhead (hc ▸ hrdash)
  rcases replicaRepairStep_ok_cases hstep with
    ⟨cp, cr, hp, hr, ⟨hlen, rfl⟩ | ⟨hlen, content, hcontent, rfl⟩⟩
  · exact ⟨cp, cr, hp, hr, hlen⟩
  · refine ⟨content, content, ?_, ?_, rfl⟩
    · show List.lookup ([r.headD '?'] ++ txtChars)
        (dictSet (dictDrop st.disk r) r content) = some content
      rw [lookup_dictSet_ne _ _ _ _ hprim]
      exact hcontent
    · show List.lookup r (dictSet (dictDrop st.disk r) r content) = some content
      exact lookup_dictSet_self _ _ _

theorem sizeMatch_preserved_step {st t : PyState} {r r' : List Char}
    (hstep : replicaRepairStep st r = .ok t) (hrdash : '-' ∈ r)
    (hr'head : r'.headD '?' ≠ '-')
    (hm : sizeMatch st r') : sizeMatch t r' := by
  by_cases heq : r' = r
  · subst heq
    exact sizeMatch_post_step hstep hrdash hr'head
  · rcases replicaRepairStep_ok_cases hstep with
      ⟨cp, cr, hp, hr, ⟨hlen, rfl⟩ | ⟨hlen, content, hcontent, rfl⟩⟩
    · exact hm
    · obtain ⟨cp', cr', hp', hr', hlen'⟩ := hm
      have hprim' : [r'.headD '?'] ++ txtChars ≠ r := by
        intro hc
        exact dash_not_mem_headTxt hr'head (hc ▸ hrdash)
      refine ⟨cp', cr', ?_, ?_, hlen'⟩
      · show List.lookup ([r'.headD '?'] ++ txtChars)
          (dictSet (dictDrop st.disk r) r content) = some cp'
        rw [lookup_dictSet_ne _ _ _ _ hprim', lookup_dictDrop_ne _ _ _ hprim']
        exact hp'
      · show List.lookup r' (dictSet (dictDrop st.disk r) r content) = some cr'
        rw [lookup_dictSet_ne _ _ _ _ heq, lookup_dictDrop_ne _ _ _ heq]
        exact hr'

theorem vrFold_basic :
    ∀ (rs : List (List Char)) (st t : PyState),
      List.foldlM replicaRepairStep st rs = .ok t →
      t.mapping = st.mapping ∧ t.mapfile = st.mapfile ∧
      t.lastCharPosition = st.lastCharPosition ∧
      t.replicationLevel = st.replicationLevel ∧
      (∀ name, name ∉ rs → List.lookup name t.disk = List.lookup name st.disk) ∧
      (∀ name, name ∈ t.disk.map Prod.fst → name ∈ st.disk.map Prod.fst ∨ name ∈ rs) := by
  intro rs
  induction rs with
  | nil =>
    intro st t h
    simp only [List.foldlM_nil] at h
    cases h
    exact ⟨rfl, rfl, rfl, rfl, fun _ _ => rfl, fun _ hn => Or.inl hn⟩
  | cons r rs ih =>
    intro st t h
    rw [List.foldlM_cons] at h
    cases hstep : replicaRepairStep st r with
    | error e => rw [hstep] at h; cases h
    | ok st1 =>
      rw [hstep] at h
      have h' : List.foldlM replicaRepairStep st1 rs = .ok t := h
      obtain ⟨ihm, ihf, ihp, ihr, ihlook, ihkeys⟩ := ih st1 t h'
      rcases replicaRepairStep_ok_cases hstep with
        ⟨cp, cr, hp, hr, ⟨hlen, rfl⟩ | ⟨hlen, content, hcontent, rfl⟩⟩
      · refine ⟨ihm, ihf, ihp, ihr, ?_, ?_⟩
        · intro name hn
          exact ihlook name (fun hc => hn (List.mem_cons_of_mem _ hc))
        · intro name hn
          rcases ihkeys name hn with hk | hk
          · exact Or.inl hk
          · exact Or.inr (List.mem_cons_of_mem _ hk)
      · refine ⟨ihm, ihf, ihp, ihr, ?_, ?_⟩
        · intro name hn
          have hne : name ≠ r := fun hc => hn (hc ▸ List.mem_cons_self _ _)
          rw [ihlook name (fun hc => hn (List.mem_cons_of_mem _ hc))]
          show List.lookup name (dictSet (dictDrop st.disk r) r content)
            = List.lookup name st.disk
          rw [lookup_dictSet_ne _ _ _ _ hne, lookup_dictDrop_ne _ _ _ hne]
        · intro name hn
          rcases ihkeys name hn with hk | hk
          · rcases mem_keys_dictSet _ _ _ _ hk with hk2 | hk2
            · exact Or.inl (mem_keys_dictDrop _ _ _ hk2)
            · exact Or.inr (hk2 ▸ List.mem_cons_self _ _)
          · exact Or.inr (List.mem_cons_of_mem _ hk)

theorem vrFold_match :
    ∀ (rs : List (List Char)) (st t : PyState),
      (∀ r ∈ rs, '-' ∈ r ∧ r.headD '?' ≠ '-') →
      List.foldlM replicaRepairStep st rs = .ok t →
      (∀ r', r'.headD '?' ≠ '-' → sizeMatch st r' → sizeMatch t r') ∧
      (∀ r ∈ rs, sizeMatch t r) := by
  intro rs
  induction rs with
  | nil =>
    intro st t _ h
    simp only [List.foldlM_nil] at h
    cases h
    exact ⟨fun _ _ hm => hm, fun r hr => by simp at hr⟩
  | cons r rs ih =>
    intro st t hshape h
    rw [List.foldlM_cons] at h
    cases hstep : replicaRepairStep st r with
    | error e => rw [hstep] at h; cases h
    | ok st1 =>
      rw [hstep] at h
      have h' : List.foldlM replicaRepairStep st1 rs = .ok t := h
      obtain ⟨hrdash, hrhead⟩ := hshape r (List.mem_cons_self _ _)
      obtain ⟨ihpres, ihest⟩ :=
        ih st1 t (fun x hx => hshape x (List.mem_cons_of_mem _ hx)) h'
      refine ⟨?_, ?_⟩
      · intro r' hr'head hm
        exact ihpres r' hr'head (sizeMatch_preserved_step hstep hrdash hr'head hm)
      · intro x hx
        rcases List.mem_cons.mp hx with rfl | hx'
        · exact ihpres x hrhead (sizeMatch_post_step hstep hrdash hrhead)
        · exact ihest x hx'

theorem vrFold_identity :
    ∀ (rs : List (List Char)) (st : PyState), (∀ r ∈ rs, sizeMatch st r) →
      List.foldlM replicaRepairStep st rs = .ok st := by
  intro rs
  induction rs with
  | nil => intro st _; rfl
  | cons r rs ih =>
    intro st h
    rw [List.foldlM_cons, replicaRepairStep_of_sizeMatch (h r (List.mem_cons_self _ _))]
    exact ih st (fun x hx => h x (List.mem_cons_of_mem _ hx))

/-! ### sync_replication assembly lemmas -/

theorem syncReplication_cases {s t : PyState} (h : syncReplication s = .ok t) :
    (getReplicationIds s = [] ∧ t = s) ∨
    (getReplicationIds s ≠ [] ∧
      ∃ m, verifyPrimaries s = .ok m ∧ verifyReplications m = .ok t) := by
  unfold syncReplication at h
  by_cases hg : getReplicationIds s ≠ []
  · rw [if_pos hg] at h
    right
    refine ⟨hg, ?_⟩
    cases hv : verifyPrimaries s with
    | error e => rw [hv] at h; cases h
    | ok m => rw [hv] at h; exact ⟨m, rfl, h⟩
  · rw [if_neg hg] at h
    left
    refine ⟨by simpa using hg, ?_⟩
    cases h
    rfl

theorem syncReplication_fields {s t : PyState} (h : syncReplication s = .ok t) :
    t.mapping = s.mapping ∧ t.mapfile = s.mapfile ∧
    t.lastCharPosition = s.lastCharPosition ∧
    t.replicationLevel = s.replicationLevel := by
  rcases syncReplication_cases h with ⟨_, rfl⟩ | ⟨_, m, hvp, hvr⟩
  · exact ⟨rfl, rfl, rfl, rfl⟩
  · obtain ⟨h1, h2, h3, h4, _, _, _⟩ :=
      vpFold_basic (primaryHeads s) (getShardIds s) s m hvp
    obtain ⟨g1, g2, g3, g4, _, _⟩ := vrFold_basic _ m t hvr
    exact ⟨g1.trans h1, g2.trans h2, g3.trans h3, g4.trans h4⟩

theorem syncReplication_disk_preserved {s t : PyState}
    (h : syncReplication s = .ok t)
    (hpres : ∀ id ∈ getShardIds s, id ∈ primaryHeads s) :
    ∀ name, '-' ∉ name → List.lookup name t.disk = List.lookup name s.disk := by
  rcases syncReplication_cases h with ⟨_, rfl⟩ | ⟨_, m, hvp, hvr⟩
  · intro name _; rfl
  · have hid : verifyPrimaries s = .ok s :=
      vpFold_identity (primaryHeads s) (getShardIds s) s hpres
    have hm : m = s := by
      have h2 : Except.ok (ε := PyErr) s = Except.ok m := by
        rw [← hid]; exact hvp
      cases h2
      rfl
    subst hm
    obtain ⟨_, _, _, _, hlook, _⟩ := vrFold_basic _ m t hvr
    intro name hname
    apply hlook
    intro hc
    rcases List.mem_filter.mp hc with ⟨_, hdash⟩
    exact hname (by simpa using hdash)

theorem syncReplication_keys {s t : PyState} (h : syncReplication s = .ok t) :
    ∀ name, name ∈ t.disk.map Prod.fst →
      name ∈ s.disk.map Prod.fst ∨ ∃ id ∈ getShardIds s, name = id ++ txtChars := by
  rcases syncReplication_cases h with ⟨_, rfl⟩ | ⟨_, m, hvp, hvr⟩
  · intro name hn; exact Or.inl hn
  · obtain ⟨_, _, _, _, _, hkeysV, _⟩ :=
      vpFold_basic (primaryHeads s) (getShardIds s) s m hvp
    obtain ⟨_, _, _, _, _, hkeysR⟩ := vrFold_basic _ m t hvr
    intro name hn
    rcases hkeysR name hn with hk | hk
    · exact hkeysV name hk
    · rcases List.mem_filter.mp hk with ⟨hmem, _⟩
      exact hkeysV name hmem

/-- C9 (amended): sync_replication is idempotent on every state following the
program's naming convention — every shard id in the index is a single
character and no replica file name starts with the separator: if one call
succeeds, a second call succeeds and changes no file and no index entry
(it returns exactly the same state).  Outside that convention idempotence
fails (see the counterexample with shard id "10"). -/
theorem claim9_sync_idempotent_amended (s s₁ : PyState)
    (hids : ∀ id ∈ getShardIds s, id.length = 1)
    (hdisk : ∀ name ∈ s.disk.map Prod.fst, '-' ∈ name → name.headD '?' ≠ '-')
    (h1 : syncReplication s = .ok s₁) :
    syncReplication s₁ = .ok s₁ := by
  rcases syncReplication_cases h1 with ⟨hempty, rfl⟩ | ⟨hne, m, hvp, hvr⟩
  · unfold syncReplication
    rw [if_neg (by simp [hempty])]
    rfl
  · obtain ⟨hm_map, hm_file, hm_pos, hm_rep, hm_look, hm_keys, hm_mono⟩ :=
      vpFold_basic (primaryHeads s) (getShardIds s) s m hvp
    obtain ⟨h1_map, h1_file, h1_pos, h1_rep, h1_look, h1_keys⟩ :=
      vrFold_basic _ m s₁ hvr
    have hids_eq : getShardIds s₁ = getShardIds s := by
      unfold getShardIds
      rw [h1_map, hm_map]
    have hrep_eq : getReplicationIds s₁ = getReplicationIds s := by
      unfold getReplicationIds
      rw [h1_map, hm_map]
    have hshape : ∀ id ∈ getShardIds s, id.length = 1 ∧ '-' ∉ id := by
      intro id hid
      exact ⟨hids id hid, ((mem_getShardIds_iff s id).mp hid).2⟩
    have hpresence_m : ∀ id ∈ getShardIds s, id ∈ primaryHeads m :=
      vpFold_presence (primaryHeads s) (getShardIds s) s m hshape (fun _ _ hp => hp) hvp
    have hpresence_s₁ : ∀ id ∈ getShardIds s, id ∈ primaryHeads s₁ := by
      intro id hid
      rcases (mem_primaryHeads_iff m id).mp (hpresence_m id hid) with ⟨f, hf, hfdash, hfk⟩
      apply (mem_primaryHeads_iff s₁ id).mpr
      refine ⟨f, ?_, hfdash, hfk⟩
      have hpl : List.lookup f s₁.disk = List.lookup f m.disk := by
        apply h1_look
        intro hc
        rcases List.mem_filter.mp hc with ⟨_, hdash⟩
        exact hfdash (by simpa using hdash)
      apply mem_keys_of_lookup_isSome
      rw [hpl]
      exact (lookup_isSome_iff_mem_keys _ _).mpr hf
    have hm_shape : ∀ r ∈ (listdir m).filter (fun f => decide ('-' ∈ f)),
        '-' ∈ r ∧ r.headD '?' ≠ '-' := by
      intro r hr
      rcases List.mem_filter.mp hr with ⟨hrmem, hrdash⟩
      have hrdash' : '-' ∈ r := by simpa using hrdash
      refine ⟨hrdash', ?_⟩
      rcases hm_keys r hrmem with hk | ⟨id, hid, rfl⟩
      · exact hdisk r hk hrdash'
      · exfalso
        rcases List.mem_append.mp hrdash' with hc | hc
        · exact ((mem_getShardIds_iff s id).mp hid).2 hc
        · exact dash_not_mem_txtChars hc
    obtain ⟨hpres2, hest2⟩ := vrFold_match _ m s₁ hm_shape hvr
    unfold syncReplication
    rw [if_pos (by rw [hrep_eq]; exact hne)]
    have hvp1 : verifyPrimaries s₁ = .ok s₁ := by
      unfold verifyPrimaries
      apply vpFold_identity
      intro id hid
      rw [hids_eq] at hid
      exact hpresence_s₁ id hid
    rw [hvp1]
    show verifyReplications s₁ = .ok s₁
    unfold verifyReplications
    apply vrFold_identity
    intro r hr
    rcases List.mem_filter.mp hr with ⟨hrmem, hrdash⟩
    have hr_rs : r ∈ (listdir m).filter (fun f => decide ('-' ∈ f)) := by
      rcases h1_keys r hrmem with hk | hk
      · exact List.mem_filter.mpr ⟨hk, hrdash⟩
      · exact hk
    exact hest2 r hr_rs

/-- A 1-shard, 1-replica state that already satisfies the repair pass. -/
def consistentPairState : PyState :=
  ⟨[("0".data, ⟨0, 2⟩), ("0-1".data, ⟨0, 2⟩)],
   [("0".data, ⟨0, 2⟩), ("0-1".data, ⟨0, 2⟩)],
   [("0.txt".data, "ab".data), ("0-1.txt".data, "ab".data)], 0, 1⟩

theorem claim9_sync_idempotent_amended_witness :
    syncReplication consistentPairState = .ok consistentPairState :=
  claim9_sync_idempotent_amended consistentPairState consistentPairState
    (by decide) (by decide) (by decide)

/-! ### Replica-name helper lemmas -/

theorem replicaFileOf_eq_alt (n lvl : Nat) :
    replicaFileOf n lvl = natDigits n ++ '-' :: (natDigits lvl ++ txtChars) := by
  unfold replicaFileOf replicaKeyOf
  rw [List.append_assoc]
  rfl

theorem takeWhile_dash_replicaKeyOf (n lvl : Nat) :
    (replicaKeyOf n lvl).takeWhile (fun c => decide (c ≠ '-')) = natDigits n := by
  unfold replicaKeyOf
  apply takeWhile_append_stop _ _ _ (by simp)
  intro c hc
  simp only [decide_eq_true_eq]
  intro hcontra
  exact dash_not_mem_natDigits n (hcontra ▸ hc)

theorem takeWhile_dash_replicaFileOf' (n lvl : Nat) :
    (replicaFileOf n lvl).takeWhile (fun c => decide (c ≠ '-')) = natDigits n := by
  rw [replicaFileOf_eq_alt]
  apply takeWhile_append_stop _ _ _ (by simp)
  intro c hc
  simp only [decide_eq_true_eq]
  intro hcontra
  exact dash_not_mem_natDigits n (hcontra ▸ hc)

theorem replicaKeyOf_inj {i l i' l' : Nat} (h : replicaKeyOf i l = replicaKeyOf i' l') :
    i = i' ∧ l = l' := by
  have hdig : natDigits i = natDigits i' := by
    have := congrArg (List.takeWhile (fun c => decide (c ≠ '-'))) h
    rwa [takeWhile_dash_replicaKeyOf, takeWhile_dash_replicaKeyOf] at this
  refine ⟨natDigits_inj hdig, ?_⟩
  unfold replicaKeyOf at h
  rw [hdig] at h
  have h2 : '-' :: natDigits l = '-' :: natDigits l' := by
    have hlen : (natDigits i').length = (natDigits i').length := rfl
    exact List.append_cancel_left h
  exact natDigits_inj (by injection h2)

theorem replicaFileOf_inj {i l i' l' : Nat}
    (h : replicaFileOf i l = replicaFileOf i' l') : i = i' ∧ l = l' := by
  have hdig : natDigits i = natDigits i' := by
    have := congrArg (List.takeWhile (fun c => decide (c ≠ '-'))) h
    rwa [takeWhile_dash_replicaFileOf', takeWhile_dash_replicaFileOf'] at this
  refine ⟨natDigits_inj hdig, ?_⟩
  rw [replicaFileOf_eq_alt, replicaFileOf_eq_alt, hdig] at h
  have h2 : natDigits l ++ txtChars = natDigits l' ++ txtChars := by
    have h3 := List.append_cancel_left h
    injection h3
  apply natDigits_inj
  apply List.append_inj_left' h2
  have := congrArg List.length h2
  simp only [List.length_append] at this
  omega

theorem shardFile_small (i : Nat) (h : i < 10) :
    shardFile i = Char.ofNat (48 + i) :: txtChars := by
  unfold shardFile
  rw [natDigits_small i h]
  rfl

theorem head_shardFile_small (i : Nat) (h : i < 10) :
    [(shardFile i).headD '?'] = natDigits i := by
  rw [shardFile_small i h, natDigits_small i h]
  rfl

theorem replicaFileOf_ne_shardFile (i l j : Nat) : replicaFileOf i l ≠ shardFile j := by
  intro hc
  exact dash_not_mem_shardFile j (hc ▸ dash_mem_replicaFileOf i l)

/-! ### C7: add_replication on a well-formed replicated setup -/

/-- An n-shard setup (single-digit ids, n ≤ 10) whose data directory holds
exactly the n primary files, with contents cs, plus replica files of those
shards at levels 1 .. replication_level, and whose mapping has an entry for
every primary. -/
structure ReplSetup (s : PyState) (n : Nat) (cs : List (List Char)) : Prop where
  hn10 : n ≤ 10
  files : ∀ i ∈ List.range n, List.lookup (shardFile i) s.disk = some (cs.getD i [])
  entries : ∀ i ∈ List.range n, (List.lookup (natDigits i) s.mapping).isSome = true
  disk_shape : ∀ name ∈ s.disk.map Prod.fst,
    (∃ i ∈ List.range n, name = shardFile i) ∨
    (∃ i ∈ List.range n, ∃ lvl ∈ List.range (s.replicationLevel + 1),
      1 ≤ lvl ∧ name = replicaFileOf i lvl)

theorem replicationCopyStep_primary (lvl : Nat) (st : PyState) (i : Nat) (hi : i < 10)
    (content : List Char) (e : Entry)
    (hc : List.lookup (shardFile i) st.disk = some content)
    (he : List.lookup (natDigits i) st.mapping = some e) :
    replicationCopyStep lvl st (shardFile i)
      = .ok { st with
          disk := dictSet st.disk (replicaFileOf i lvl) content,
          mapping := dictSet st.mapping (replicaKeyOf i lvl) e } := by
  unfold replicationCopyStep
  rw [if_neg (by simp [dash_not_mem_shardFile i])]
  simp only [hc]
  simp only [head_shardFile_small i hi]
  simp only [he]
  rfl

theorem replicationCopyStep_replica (lvl : Nat) (st : PyState) (f : List Char)
    (hf : '-' ∈ f) : replicationCopyStep lvl st f = .ok st := by
  unfold replicationCopyStep
  rw [if_pos (by simpa using hf)]
  rfl

theorem c7Fold (n : Nat) (cs : List (List Char)) (s : PyState) (lvl : Nat)
    (hn10 : n ≤ 10)
    (hentries : ∀ i ∈ List.range n, (List.lookup (natDigits i) s.mapping).isSome = true) :
    ∀ (fs : List (List Char)) (st : PyState),
      (∀ f ∈ fs, (∃ i ∈ List.range n, f = shardFile i) ∨ '-' ∈ f) →
      (∀ i ∈ List.range n, List.lookup (shardFile i) st.disk = some (cs.getD i [])) →
      (∀ i ∈ List.range n,
        List.lookup (natDigits i) st.mapping = List.lookup (natDigits i) s.mapping) →
      ∃ T, List.foldlM (replicationCopyStep lvl) st fs = .ok T ∧
        (∀ i ∈ List.range n, shardFile i ∈ fs →
          List.lookup (replicaFileOf i lvl) T.disk = some (cs.getD i []) ∧
          List.lookup (replicaKeyOf i lvl) T.mapping
            = List.lookup (natDigits i) s.mapping) ∧
        (∀ name, (∀ i ∈ List.range n, shardFile i ∈ fs → name ≠ replicaFileOf i lvl) →
          List.lookup name T.disk = List.lookup name st.disk) ∧
        (∀ k, (∀ i ∈ List.range n, shardFile i ∈ fs → k ≠ replicaKeyOf i lvl) →
          List.lookup k T.mapping = List.lookup k st.mapping) ∧
        T.mapfile = st.mapfile ∧ T.lastCharPosition = st.lastCharPosition ∧
        T.replicationLevel = st.replicationLevel := by
  intro fs
  induction fs with
  | nil =>
    intro st _ _ _
    refine ⟨st, rfl, ?_, fun _ _ => rfl, fun _ _ => rfl, rfl, rfl, rfl⟩
    intro i _ hmem
    simp at hmem
  | cons f fs ih =>
    intro st hshape hA hB
    rcases hshape f (List.mem_cons_self _ _) with ⟨i0, hi0, rfl⟩ | hdash
    · -- f is the primary file of shard i0
      have hi0lt : i0 < n := List.mem_range.mp hi0
      obtain ⟨e, he⟩ := Option.isSome_iff_exists.mp (hentries i0 hi0)
      have heB : List.lookup (natDigits i0) st.mapping = some e := by
        rw [hB i0 hi0]; exact he
      have hstep := replicationCopyStep_primary lvl st i0 (by omega) (cs.getD i0 [])
        e (hA i0 hi0) heB
      set st1 : PyState := { st with
          disk := dictSet st.disk (replicaFileOf i0 lvl) (cs.getD i0 []),
          mapping := dictSet st.mapping (replicaKeyOf i0 lvl) e } with hst1
      have hA1 : ∀ i ∈ List.range n,
          List.lookup (shardFile i) st1.disk = some (cs.getD i []) := by
        intro i hi
        show List.lookup (shardFile i)
          (dictSet st.disk (replicaFileOf i0 lvl) (cs.getD i0 [])) = _
        rw [lookup_dictSet_ne _ _ _ _
          (fun hc => replicaFileOf_ne_shardFile i0 lvl i hc.symm)]
        exact hA i hi
      have hB1 : ∀ i ∈ List.range n,
          List.lookup (natDigits i) st1.mapping = List.lookup (natDigits i) s.mapping := by
        intro i hi
        show List.lookup (natDigits i)
          (dictSet st.mapping (replicaKeyOf i0 lvl) e) = _
        rw [lookup_dictSet_ne _ _ _ _ (fun hc =>
          dash_not_mem_natDigits i (by rw [hc]; exact dash_mem_replicaKeyOf i0 lvl))]
        exact hB i hi
      obtain ⟨T, hfold, hnew, hdiskpres, hmappres, hfile, hpos, hrep⟩ :=
        ih st1 (fun x hx => hshape x (List.mem_cons_of_mem _ hx)) hA1 hB1
      refine ⟨T, ?_, ?_, ?_, ?_, ?_, ?_, ?_⟩
      · rw [List.foldlM_cons, hstep]
        exact hfold
      · intro i hi hmem
        by_cases hifs : shardFile i ∈ fs
        · exact hnew i hi hifs
        · have hieq : i = i0 := by
            rcases List.mem_cons.mp hmem with hc | hc
            · exact shardFile_inj hc
            · exact absurd hc hifs
          subst hieq
          constructor
          · rw [hdiskpres (replicaFileOf i lvl) (fun j hj hjfs hc => by
              obtain ⟨hji, _⟩ := replicaFileOf_inj hc
              exact hifs (hji ▸ hjfs))]
            show List.lookup (replicaFileOf i lvl)
              (dictSet st.disk (replicaFileOf i lvl) (cs.getD i [])) = _
            rw [lookup_dictSet_self]
          · rw [hmappres (replicaKeyOf i lvl) (fun j hj hjfs hc => by
              obtain ⟨hji, _⟩ := replicaKeyOf_inj hc
              exact hifs (hji ▸ hjfs))]
            show List.lookup (replicaKeyOf i lvl)
              (dictSet st.mapping (replicaKeyOf i lvl) e) = _
            rw [lookup_dictSet_self]
            exact he.symm
      · intro name hname
        rw [hdiskpres name (fun j hj hjfs => hname j hj (List.mem_cons_of_mem _ hjfs))]
        show List.lookup name (dictSet st.disk (replicaFileOf i0 lvl) (cs.getD i0 [])) = _
        rw [lookup_dictSet_ne _ _ _ _
          (hname i0 hi0 (List.mem_cons_self _ _))]
      · intro k hk
        rw [hmappres k (fun j hj hjfs => hk j hj (List.mem_cons_of_mem _ hjfs))]
        show List.lookup k (dictSet st.mapping (replicaKeyOf i0 lvl) e) = _
        rw [lookup_dictSet_ne _ _ _ _ (hk i0 hi0 (List.mem_cons_self _ _))]
      · exact hfile
      · exact hpos
      · exact hrep
    · -- f is a replica file: skipped
      have hstep := replicationCopyStep_replica lvl st f hdash
      obtain ⟨T, hfold, hnew, hdiskpres, hmappres, hfile, hpos, hrep⟩ :=
        ih st (fun x hx => hshape x (List.mem_cons_of_mem _ hx)) hA hB
      refine ⟨T, ?_, ?_, ?_, ?_, hfile, hpos, hrep⟩
      · rw [List.foldlM_cons, hstep]
        exact hfold
      · intro i hi hmem
        rcases List.mem_cons.mp hmem with hc | hc
        · exact absurd (hc ▸ hdash) (dash_not_mem_shardFile i)
        · exact hnew i hi hc
      · intro name hname
        exact hdiskpres name (fun j hj hjfs => hname j hj (List.mem_cons_of_mem _ hjfs))
      · intro k hk
        exact hmappres k (fun j hj hjfs => hk j hj (List.mem_cons_of_mem _ hjfs))

/-- C7 (amended): on an n-shard setup at replication depth d whose shard ids
are single characters (n ≤ 10), add_replication succeeds and creates exactly
n new replica files at level d+1 — one per primary shard on disk, none of
which existed before, and nothing else on disk changes — each byte-identical
to its primary, and inserts for each an IndexEntry equal to its parent
shard's entry, leaving every other mapping key unchanged; the mapping is then
persisted.  With an 11th shard the first-character keying collapses two
copies onto one name (see the counterexample). -/
theorem claim7_addreplication_amended (s : PyState) (n : Nat) (cs : List (List Char))
    (d : Nat) (hs : ReplSetup s n cs) (hd : s.replicationLevel = d) :
    ∃ t, addReplication s = .ok t ∧
      t.replicationLevel = d + 1 ∧
      (∀ i ∈ List.range n, List.lookup (replicaFileOf i (d + 1)) s.disk = Option.none) ∧
      (∀ i ∈ List.range n,
        List.lookup (replicaFileOf i (d + 1)) t.disk = some (cs.getD i []) ∧
        List.lookup (shardFile i) t.disk = some (cs.getD i []) ∧
        List.lookup (replicaKeyOf i (d + 1)) t.mapping
          = List.lookup (natDigits i) s.mapping ∧
        (List.lookup (replicaKeyOf i (d + 1)) t.mapping).isSome = true) ∧
      (∀ name, (∀ i ∈ List.range n, name ≠ replicaFileOf i (d + 1)) →
        List.lookup name t.disk = List.lookup name s.disk) ∧
      (∀ k, (∀ i ∈ List.range n, k ≠ replicaKeyOf i (d + 1)) →
        List.lookup k t.mapping = List.lookup k s.mapping) ∧
      t.mapfile = t.mapping := by
  subst hd
  obtain ⟨Tf, hfold, hnew, hdiskpres, hmappres, hTfile, hTpos, hTrep⟩ :=
    c7Fold n cs s (s.replicationLevel + 1) hs.hn10 hs.entries
      (listdir { s with replicationLevel := s.replicationLevel + 1 })
      { s with replicationLevel := s.replicationLevel + 1 }
      (by
        intro f hf
        rcases hs.disk_shape f hf with ⟨i, hi, rfl⟩ | ⟨i, hi, lvl, _, _, rfl⟩
        · exact Or.inl ⟨i, hi, rfl⟩
        · exact Or.inr (dash_mem_replicaFileOf i lvl))
      (fun i hi => hs.files i hi)
      (fun i hi => rfl)
  have hmemfs : ∀ i ∈ List.range n,
      shardFile i ∈ listdir { s with replicationLevel := s.replicationLevel + 1 } := by
    intro i hi
    exact mem_keys_of_lookup_isSome (by rw [hs.files i hi]; rfl)
  refine ⟨writeMap Tf, ?_, ?_, ?_, ?_, ?_, ?_, rfl⟩
  · unfold addReplication
    simp only []
    rw [hfold]
    rfl
  · show Tf.replicationLevel = s.replicationLevel + 1
    rw [hTrep]
  · intro i hi
    apply lookup_eq_none_of_not_mem_keys
    intro hmem
    rcases hs.disk_shape _ hmem with ⟨j, _, hj⟩ | ⟨j, _, lvl, hlvl, _, hj⟩
    · exact replicaFileOf_ne_shardFile i (s.replicationLevel + 1) j hj
    · obtain ⟨_, hl⟩ := replicaFileOf_inj hj
      have := List.mem_range.mp hlvl
      omega
  · intro i hi
    obtain ⟨hdisk, hmap⟩ := hnew i hi (hmemfs i hi)
    refine ⟨hdisk, ?_, hmap, ?_⟩
    · show List.lookup (shardFile i) Tf.disk = _
      rw [hdiskpres (shardFile i) (fun j _ _ hc =>
        replicaFileOf_ne_shardFile j (s.replicationLevel + 1) i hc.symm)]
      exact hs.files i hi
    · show (List.lookup (replicaKeyOf i (s.replicationLevel + 1)) Tf.mapping).isSome = true
      rw [hmap]
      exact hs.entries i hi
  · intro name hname
    show List.lookup name Tf.disk = _
    rw [hdiskpres name (fun j hj _ => hname j hj)]
  · intro k hk
    show List.lookup k Tf.mapping = _
    rw [hmappres k (fun j hj _ => hk j hj)]

theorem claim7_addreplication_amended_witness :
    ∃ t, addReplication twoRepState = .ok t ∧
      t.replicationLevel = 1 + 1 ∧
      (∀ i ∈ List.range 2,
        List.lookup (replicaFileOf i (1 + 1)) twoRepState.disk = Option.none) ∧
      (∀ i ∈ List.range 2,
        List.lookup (replicaFileOf i (1 + 1)) t.disk
          = some (["a".data, "b".data].getD i []) ∧
        List.lookup (shardFile i) t.disk = some (["a".data, "b".data].getD i []) ∧
        List.lookup (replicaKeyOf i (1 + 1)) t.mapping
          = List.lookup (natDigits i) twoRepState.mapping ∧
        (List.lookup (replicaKeyOf i (1 + 1)) t.mapping).isSome = true) ∧
      (∀ name, (∀ i ∈ List.range 2, name ≠ replicaFileOf i (1 + 1)) →
        List.lookup name t.disk = List.lookup name twoRepState.disk) ∧
      (∀ k, (∀ i ∈ List.range 2, k ≠ replicaKeyOf i (1 + 1)) →
        List.lookup k t.mapping = List.lookup k twoRepState.mapping) ∧
      t.mapfile = t.mapping :=
  claim7_addreplication_amended twoRepState 2 ["a".data, "b".data] 1
    ⟨by decide, by decide, by decide, by decide⟩ (by decide)

/-! ### C8: remove_replication -/

theorem loadMap_eq_self {s : PyState} (h : s.mapfile = s.mapping) : loadMap s = s := by
  cases s
  unfold loadMap
  simp only [] at h ⊢
  rw [h]

theorem mapM_ok_of_forall {α β : Type} (f : α → Except PyErr β) (g : α → β) :
    ∀ l : List α, (∀ x ∈ l, f x = .ok (g x)) → l.mapM f = .ok (l.map g) := by
  intro l
  induction l with
  | nil => intro _; rfl
  | cons x xs ih =>
    intro h
    rw [List.mapM_cons, h x (List.mem_cons_self _ _),
      ih (fun y hy => h y (List.mem_cons_of_mem _ hy))]
    rfl

theorem mapM_pyInt_natDigits (n : Nat) :
    ((List.range n).map natDigits).mapM pyInt = .ok (List.range n) := by
  rw [mapM_ok_of_forall pyInt digitsVal _ ?ok]
  case ok =>
    intro x hx
    rcases List.mem_map.mp hx with ⟨i, _, rfl⟩
    rw [pyInt_natDigits, digitsVal_natDigits]
  rw [List.map_map]
  congr 1
  rw [show digitsVal ∘ natDigits = id from funext (fun x => digitsVal_natDigits x)]
  exact List.map_id _

theorem head_replicaFileOf_small (i lvl : Nat) (h : i < 10) :
    [(replicaFileOf i lvl).headD '?'] = natDigits i := by
  unfold replicaFileOf replicaKeyOf
  rw [natDigits_small i h]
  rfl

theorem syncReplication_identity (u : PyState)
    (hP : ∀ id ∈ getShardIds u, id ∈ primaryHeads u)
    (hM : ∀ r ∈ (listdir u).filter (fun f => decide ('-' ∈ f)), sizeMatch u r) :
    syncReplication u = .ok u := by
  unfold syncReplication
  by_cases hg : getReplicationIds u ≠ []
  · rw [if_pos hg]
    rw [show verifyPrimaries u = .ok u from
      (by unfold verifyPrimaries; exact vpFold_identity _ _ _ hP)]
    show verifyReplications u = .ok u
    unfold verifyReplications
    exact vrFold_identity _ _ hM
  · rw [if_neg hg]
    rfl

theorem levelRemoveStep_present (d : Nat) (st : PyState) (i : Nat)
    (hf : (List.lookup (replicaFileOf i d) st.disk).isSome = true)
    (he : (List.lookup (replicaKeyOf i d) st.mapping).isSome = true) :
    levelRemoveStep d st i = .ok { st with
      disk := dictDrop st.disk (replicaFileOf i d),
      mapping := dictDrop st.mapping (replicaKeyOf i d) } := by
  unfold levelRemoveStep
  rw [if_pos hf]
  simp only []
  rw [if_pos he]
  rfl

theorem levelRemoveStep_absent (d : Nat) (st : PyState) (i : Nat)
    (hf : List.lookup (replicaFileOf i d) st.disk = Option.none) :
    levelRemoveStep d st i = .ok st := by
  unfold levelRemoveStep
  rw [if_neg (by simp [hf])]
  rfl

theorem c8Fold (d n : Nat) (s : PyState)
    (hlock : ∀ i : Nat, i < n → (List.lookup (replicaFileOf i d) s.disk).isSome = true →
      (List.lookup (replicaKeyOf i d) s.mapping).isSome = true)
    (hlock2 : ∀ i : Nat, i < n → (List.lookup (replicaKeyOf i d) s.mapping).isSome = true →
      (List.lookup (replicaFileOf i d) s.disk).isSome = true) :
    ∀ (ks : List Nat) (st : PyState), ks.Nodup → (∀ i ∈ ks, i < n) →
      (∀ i ∈ ks, List.lookup (replicaFileOf i d) st.disk
        = List.lookup (replicaFileOf i d) s.disk) →
      (∀ i ∈ ks, List.lookup (replicaKeyOf i d) st.mapping
        = List.lookup (replicaKeyOf i d) s.mapping) →
      ∃ T, List.foldlM (levelRemoveStep d) st ks = .ok T ∧
        (∀ i ∈ ks, List.lookup (replicaFileOf i d) T.disk = Option.none ∧
          List.lookup (replicaKeyOf i d) T.mapping = Option.none) ∧
        (∀ name, (∀ i ∈ ks, name ≠ replicaFileOf i d) →
          List.lookup name T.disk = List.lookup name st.disk) ∧
        (∀ k, (∀ i ∈ ks, k ≠ replicaKeyOf i d) →
          List.lookup k T.mapping = List.lookup k st.mapping) ∧
        (∀ name, name ∈ T.disk.map Prod.fst → name ∈ st.disk.map Prod.fst) ∧
        (∀ k, k ∈ T.mapping.map Prod.fst → k ∈ st.mapping.map Prod.fst) ∧
        T.mapfile = st.mapfile ∧ T.lastCharPosition = st.lastCharPosition ∧
        T.replicationLevel = st.replicationLevel := by
  intro ks
  induction ks with
  | nil =>
    intro st _ _ _ _
    exact ⟨st, rfl, fun i hi => by simp at hi, fun _ _ => rfl, fun _ _ => rfl,
      fun _ h => h, fun _ h => h, rfl, rfl, rfl⟩
  | cons i0 ks ih =>
    intro st hnodup hbound hdisk hmap
    have hi0notin : i0 ∉ ks := (List.nodup_cons.mp hnodup).1
    have hnodup' : ks.Nodup := (List.nodup_cons.mp hnodup).2
    have hbound' : ∀ i ∈ ks, i < n := fun i hi => hbound i (List.mem_cons_of_mem _ hi)
    cases hf : List.lookup (replicaFileOf i0 d) st.disk with
    | some c =>
      have hfS : (List.lookup (replicaFileOf i0 d) s.disk).isSome = true := by
        rw [← hdisk i0 (List.mem_cons_self _ _), hf]
        rfl
      have heS := hlock i0 (hbound i0 (List.mem_cons_self _ _)) hfS
      have heSt : (List.lookup (replicaKeyOf i0 d) st.mapping).isSome = true := by
        rw [hmap i0 (List.mem_cons_self _ _)]
        exact heS
      have hstep := levelRemoveStep_present d st i0 (by rw [hf]; rfl) heSt
      set st1 : PyState := { st with
        disk := dictDrop st.disk (replicaFileOf i0 d),
        mapping := dictDrop st.mapping (replicaKeyOf i0 d) } with hst1
      have hdisk1 : ∀ i ∈ ks, List.lookup (replicaFileOf i d) st1.disk
          = List.lookup (replicaFileOf i d) s.disk := by
        intro i hi
        show List.lookup (replicaFileOf i d) (dictDrop st.disk (replicaFileOf i0 d)) = _
        rw [lookup_dictDrop_ne _ _ _ (fun hc =>
          hi0notin (by rw [← (replicaFileOf_inj hc).1]; exact hi))]
        exact hdisk i (List.mem_cons_of_mem _ hi)
      have hmap1 : ∀ i ∈ ks, List.lookup (replicaKeyOf i d) st1.mapping
          = List.lookup (replicaKeyOf i d) s.mapping := by
        intro i hi
        show List.lookup (replicaKeyOf i d) (dictDrop st.mapping (replicaKeyOf i0 d)) = _
        rw [lookup_dictDrop_ne _ _ _ (fun hc =>
          hi0notin (by rw [← (replicaKeyOf_inj hc).1]; exact hi))]
        exact hmap i (List.mem_cons_of_mem _ hi)
      obtain ⟨T, hfold, hgone, hdiskpres, hmappres, hdkeys, hmkeys, hTfile, hTpos, hTrep⟩ :=
        ih st1 hnodup' hbound' hdisk1 hmap1
      refine ⟨T, ?_, ?_, ?_, ?_, ?_, ?_, hTfile, hTpos, hTrep⟩
      · rw [List.foldlM_cons, hstep]
        exact hfold
      · intro i hi
        rcases List.mem_cons.mp hi with rfl | hi'
        · constructor
          · rw [hdiskpres _ (fun j hj hc => hi0notin (by rw [(replicaFileOf_inj hc).1]; exact hj))]
            show List.lookup (replicaFileOf i d) (dictDrop st.disk (replicaFileOf i d)) = _
            exact lookup_dictDrop_self _ _
          · rw [hmappres _ (fun j hj hc => hi0notin (by rw [(replicaKeyOf_inj hc).1]; exact hj))]
            show List.lookup (replicaKeyOf i d) (dictDrop st.mapping (replicaKeyOf i d)) = _
            exact lookup_dictDrop_self _ _
        · exact hgone i hi'
      · intro name hname
        rw [hdiskpres name (fun j hj => hname j (List.mem_cons_of_mem _ hj))]
        show List.lookup name (dictDrop st.disk (replicaFileOf i0 d)) = _
        exact lookup_dictDrop_ne _ _ _ (hname i0 (List.mem_cons_self _ _))
      · intro k hk
        rw [hmappres k (fun j hj => hk j (List.mem_cons_of_mem _ hj))]
        show List.lookup k (dictDrop st.mapping (replicaKeyOf i0 d)) = _
        exact lookup_dictDrop_ne _ _ _ (hk i0 (List.mem_cons_self _ _))
      · intro name hn
        exact mem_keys_dictDrop _ _ _ (hdkeys name hn)
      · intro k hk
        exact mem_keys_dictDrop _ _ _ (hmkeys k hk)
    | none =>
      have hstep := levelRemoveStep_absent d st i0 hf
      have hfS : List.lookup (replicaFileOf i0 d) s.disk = Option.none := by
        rw [← hdisk i0 (List.mem_cons_self _ _)]
        exact hf
      have heS : List.lookup (replicaKeyOf i0 d) s.mapping = Option.none := by
        cases he : List.lookup (replicaKeyOf i0 d) s.mapping with
        | none => rfl
        | some e =>
          have := hlock2 i0 (hbound i0 (List.mem_cons_self _ _)) (by rw [he]; rfl)
          rw [hfS] at this
          cases this
      obtain ⟨T, hfold, hgone, hdiskpres, hmappres, hdkeys, hmkeys, hTfile, hTpos, hTrep⟩ :=
        ih st hnodup' hbound' (fun i hi => hdisk i (List.mem_cons_of_mem _ hi))
          (fun i hi => hmap i (List.mem_cons_of_mem _ hi))
      refine ⟨T, ?_, ?_, ?_, ?_, hdkeys, hmkeys, hTfile, hTpos, hTrep⟩
      · rw [List.foldlM_cons, hstep]
        exact hfold
      · intro i hi
        rcases List.mem_cons.mp hi with rfl | hi'
        · constructor
          · rw [hdiskpres _ (fun j hj hc => hi0notin (by rw [(replicaFileOf_inj hc).1]; exact hj))]
            exact hf
          · rw [hmappres _ (fun j hj hc => hi0notin (by rw [(replicaKeyOf_inj hc).1]; exact hj))]
            rw [hmap i (List.mem_cons_self _ _)]
            exact heS
        · exact hgone i hi'
      · intro name hname
        exact hdiskpres name (fun j hj => hname j (List.mem_cons_of_mem _ hj))
      · intro k hk
        exact hmappres k (fun j hj => hk j (List.mem_cons_of_mem _ hj))

/-- A consistent replicated n-shard setup: the persisted map equals the
in-memory mapping, the shard ids are exactly 0 .. n-1, the primary files hold
cs, every disk file is a primary or a replica of one at a level within the
recorded replication depth, replica contents agree with their primaries, and
at the deepest level a replica file exists exactly when its index entry does. -/
structure ConsistentRepl (s : PyState) (n : Nat) (cs : List (List Char)) : Prop where
  hn10 : n ≤ 10
  map_sync : s.mapfile = s.mapping
  ids : getShardIds s = (List.range n).map natDigits
  files : ∀ i ∈ List.range n, List.lookup (shardFile i) s.disk = some (cs.getD i [])
  disk_shape : ∀ name ∈ s.disk.map Prod.fst,
    (∃ i ∈ List.range n, name = shardFile i) ∨
    (∃ i ∈ List.range n, ∃ lvl ∈ List.range (s.replicationLevel + 1),
      1 ≤ lvl ∧ name = replicaFileOf i lvl)
  replica_content : ∀ i ∈ List.range n, ∀ lvl ∈ List.range (s.replicationLevel + 1),
    List.lookup (replicaFileOf i lvl) s.disk = Option.none ∨
    List.lookup (replicaFileOf i lvl) s.disk = some (cs.getD i [])
  lock_file_entry : ∀ i ∈ List.range n,
    (List.lookup (replicaFileOf i s.replicationLevel) s.disk).isSome = true →
    (List.lookup (replicaKeyOf i s.replicationLevel) s.mapping).isSome = true
  lock_entry_file : ∀ i ∈ List.range n,
    (List.lookup (replicaKeyOf i s.replicationLevel) s.mapping).isSome = true →
    (List.lookup (replicaFileOf i s.replicationLevel) s.disk).isSome = true

/-- C8 (corrected): on a consistent replicated n-shard setup at recorded
depth d, remove_replication raises FileNotFoundError exactly when d = 0;
otherwise it succeeds, deletes precisely the level-d replica file and index
entry of every shard id, leaves every other file and index entry unchanged,
and persists the result.  The original claim's "deepest level currently
present among replica ids" is corrected to the recorded (possibly stale)
self.replication_level counter, which the code uses instead of re-scanning. -/
theorem claim8_removereplication_amended (s : PyState) (n d : Nat)
    (cs : List (List Char)) (h : ConsistentRepl s n cs)
    (hd : s.replicationLevel = d) :
    (d = 0 → removeReplication s = .error .fileNotFound) ∧
    (d ≠ 0 → ∃ t, removeReplication s = .ok t ∧
      (∀ i ∈ List.range n, List.lookup (replicaFileOf i d) t.disk = Option.none ∧
        List.lookup (replicaKeyOf i d) t.mapping = Option.none) ∧
      (∀ name, (∀ i ∈ List.range n, name ≠ replicaFileOf i d) →
        List.lookup name t.disk = List.lookup name s.disk) ∧
      (∀ k, (∀ i ∈ List.range n, k ≠ replicaKeyOf i d) →
        List.lookup k t.mapping = List.lookup k s.mapping) ∧
      t.mapfile = t.mapping ∧ t.replicationLevel = d) := by
  have hn10 := h.hn10
  have hEval : removeReplication s =
      (if d ≠ 0 then
        match (List.range n).foldlM (levelRemoveStep d) s with
        | .error e => .error e
        | .ok s' => syncReplication (writeMap s')
      else Except.error PyErr.fileNotFound) := by
    unfold removeReplication
    simp only []
    rw [loadMap_eq_self h.map_sync, h.ids, mapM_pyInt_natDigits n]
    show (if s.replicationLevel ≠ 0 then
        match (List.range n).foldlM (levelRemoveStep s.replicationLevel) s with
        | .error e => .error e
        | .ok s' => syncReplication (writeMap s')
      else Except.error PyErr.fileNotFound) = _
    rw [hd]
  constructor
  · intro h0
    rw [hEval, if_neg (fun hc => hc h0)]
  · intro hne
    have hlockA : ∀ i : Nat, i < n →
        (List.lookup (replicaFileOf i d) s.disk).isSome = true →
        (List.lookup (replicaKeyOf i d) s.mapping).isSome = true := by
      intro i hi
      have := h.lock_file_entry i (List.mem_range.mpr hi)
      rw [hd] at this
      exact this
    have hlockB : ∀ i : Nat, i < n →
        (List.lookup (replicaKeyOf i d) s.mapping).isSome = true →
        (List.lookup (replicaFileOf i d) s.disk).isSome = true := by
      intro i hi
      have := h.lock_entry_file i (List.mem_range.mpr hi)
      rw [hd] at this
      exact this
    obtain ⟨T, hfold, hgone, hdiskpres, hmappres, hdkeys, hmkeys, hTfile, hTpos, hTrep⟩ :=
      c8Fold d n s hlockA hlockB (List.range n) s (List.nodup_range n)
        (fun i hi => List.mem_range.mp hi) (fun _ _ => rfl) (fun _ _ => rfl)
    have hP : ∀ id ∈ getShardIds (writeMap T), id ∈ primaryHeads (writeMap T) := by
      intro id hid
      have hid' : id ∈ T.mapping.map Prod.fst ∧ '-' ∉ id :=
        (mem_getShardIds_iff (writeMap T) id).mp hid
      have hmemS : id ∈ s.mapping.map Prod.fst := hmkeys id hid'.1
      have hidS : id ∈ getShardIds s := (mem_getShardIds_iff s id).mpr ⟨hmemS, hid'.2⟩
      rw [h.ids] at hidS
      rcases List.mem_map.mp hidS with ⟨i, hi, rfl⟩
      have hilt : i < n := List.mem_range.mp hi
      have hfile : List.lookup (shardFile i) T.disk = some (cs.getD i []) := by
        rw [hdiskpres (shardFile i)
          (fun j _ hc => replicaFileOf_ne_shardFile j d i hc.symm)]
        exact h.files i hi
      exact (mem_primaryHeads_iff (writeMap T) (natDigits i)).mpr
        ⟨shardFile i, mem_keys_of_lookup_eq_some hfile, dash_not_mem_shardFile i,
          head_shardFile_small i (by omega)⟩
    have hM : ∀ r ∈ (listdir (writeMap T)).filter (fun f => decide ('-' ∈ f)),
        sizeMatch (writeMap T) r := by
      intro r hr
      rcases List.mem_filter.mp hr with ⟨hrmem, hrdash⟩
      have hrdash' : '-' ∈ r := by simpa using hrdash
      have hrmem' : r ∈ T.disk.map Prod.fst := hrmem
      have hrS : r ∈ s.disk.map Prod.fst := hdkeys r hrmem'
      rcases h.disk_shape r hrS with ⟨j, hj, rfl⟩ | ⟨j, hj, lvl, hlvl, hlvl1, rfl⟩
      · exact absurd hrdash' (dash_not_mem_shardFile j)
      · have hjlt : j < n := List.mem_range.mp hj
        have hlvlne : lvl ≠ d := by
          intro hceq
          subst hceq
          have hsm : (List.lookup (replicaFileOf j lvl) T.disk).isSome = true :=
            (lookup_isSome_iff_mem_keys _ _).mpr hrmem'
          rw [(hgone j hj).1] at hsm
          cases hsm
        have hpres : List.lookup (replicaFileOf j lvl) T.disk
            = List.lookup (replicaFileOf j lvl) s.disk := by
          apply hdiskpres
          intro i _ hc
          exact hlvlne (replicaFileOf_inj hc).2
        have hsome : (List.lookup (replicaFileOf j lvl) T.disk).isSome = true :=
          (lookup_isSome_iff_mem_keys _ _).mpr hrmem'
        obtain ⟨cr, hcr⟩ := Option.isSome_iff_exists.mp hsome
        have hcrS : List.lookup (replicaFileOf j lvl) s.disk = some cr := by
          rw [← hpres]
          exact hcr
        have hcrval : cr = cs.getD j [] := by
          rcases h.replica_content j hj lvl hlvl with hnone | hsome'
          · rw [hcrS] at hnone
            exact absurd hnone (by simp)
          · rw [hcrS] at hsome'
            exact Option.some_inj.mp hsome'
        have hprim : List.lookup (shardFile j) T.disk = some (cs.getD j []) := by
          rw [hdiskpres (shardFile j)
            (fun i _ hc => replicaFileOf_ne_shardFile i d j hc.symm)]
          exact h.files j hj
        refine ⟨cs.getD j [], cr, ?_, hcr, by rw [hcrval]⟩
        have hhead : [(replicaFileOf j lvl).headD '?'] ++ txtChars = shardFile j := by
          rw [head_replicaFileOf_small j lvl (by omega)]
          rfl
        rw [hhead]
        exact hprim
    have hid := syncReplication_identity (writeMap T) hP hM
    refine ⟨writeMap T, ?_, ?_, ?_, ?_, rfl, ?_⟩
    · rw [hEval, if_pos hne, hfold]
      exact hid
    · intro i hi
      exact ⟨(hgone i hi).1, (hgone i hi).2⟩
    · intro name hname
      exact hdiskpres name hname
    · intro k hk
      exact hmappres k hk
    · show T.replicationLevel = d
      rw [hTrep, hd]

/-- Closed witness for C8 at a concrete consistent depth-1 single-shard
state: removal succeeds and deletes exactly the level-1 replica. -/
theorem claim8_removereplication_amended_witness :
    (1 = 0 → removeReplication consistentPairState = .error .fileNotFound) ∧
    (1 ≠ 0 → ∃ t, removeReplication consistentPairState = .ok t ∧
      (∀ i ∈ List.range 1,
        List.lookup (replicaFileOf i 1) t.disk = Option.none ∧
        List.lookup (replicaKeyOf i 1) t.mapping = Option.none) ∧
      (∀ name, (∀ i ∈ List.range 1, name ≠ replicaFileOf i 1) →
        List.lookup name t.disk = List.lookup name consistentPairState.disk) ∧
      (∀ k, (∀ i ∈ List.range 1, k ≠ replicaKeyOf i 1) →
        List.lookup k t.mapping = List.lookup k consistentPairState.mapping) ∧
      t.mapfile = t.mapping ∧ t.replicationLevel = 1) :=
  claim8_removereplication_amended consistentPairState 1 1 ["ab".data]
    ⟨by decide, by decide, by decide, by decide, by decide, by decide, by decide,
      by decide⟩ (by decide)

/-! ### C6: remove_shard -/

theorem mem_keys_dictDrop_of_ne {V : Type} (m : PyDict V) (k name : List Char)
    (hne : name ≠ k) (h : name ∈ m.map Prod.fst) :
    name ∈ (dictDrop m k).map Prod.fst := by
  unfold dictDrop
  rcases List.mem_map.mp h with ⟨p, hp, rfl⟩
  exact List.mem_map.mpr ⟨p, List.mem_filter.mpr ⟨hp, by simpa using hne⟩, rfl⟩

theorem ne_of_mem_keys_dictDrop {V : Type} (m : PyDict V) (k name : List Char)
    (h : name ∈ (dictDrop m k).map Prod.fst) : name ≠ k := by
  unfold dictDrop at h
  rcases List.mem_map.mp h with ⟨p, hp, rfl⟩
  simpa using (List.mem_filter.mp hp).2

theorem writeShard_proj (st : PyState) (jn : Nat) (d : List Char) :
    (writeShard st jn d).disk = dictSet st.disk (shardFile jn) d ∧
    (writeShard st jn d).mapfile = st.mapfile ∧
    (writeShard st jn d).replicationLevel = st.replicationLevel ∧
    ∃ e, (writeShard st jn d).mapping = dictSet st.mapping (natDigits jn) e := by
  unfold writeShard writeShardMapping
  by_cases hj : jn = 0
  · rw [if_pos hj]
    exact ⟨rfl, rfl, rfl, _, rfl⟩
  · rw [if_neg hj]
    exact ⟨rfl, rfl, rfl, _, rfl⟩

theorem writeShardsFrom_basic :
    ∀ (pieces : List (List Char)) (j : Nat) (st : PyState),
      (writeShardsFrom st j pieces).mapfile = st.mapfile ∧
      (writeShardsFrom st j pieces).replicationLevel = st.replicationLevel ∧
      (∀ i, i < pieces.length →
        List.lookup (shardFile (j + i)) (writeShardsFrom st j pieces).disk
          = some (pieces.getD i [])) ∧
      (∀ name, (∀ i, i < pieces.length → name ≠ shardFile (j + i)) →
        List.lookup name (writeShardsFrom st j pieces).disk = List.lookup name st.disk) ∧
      (∀ i, i < pieces.length →
        (List.lookup (natDigits (j + i)) (writeShardsFrom st j pieces).mapping).isSome
          = true) ∧
      (∀ k, (∀ i, i < pieces.length → k ≠ natDigits (j + i)) →
        List.lookup k (writeShardsFrom st j pieces).mapping = List.lookup k st.mapping) ∧
      (∀ k, k ∈ (writeShardsFrom st j pieces).mapping.map Prod.fst →
        k ∈ st.mapping.map Prod.fst ∨ ∃ i, i < pieces.length ∧ k = natDigits (j + i)) := by
  intro pieces
  induction pieces with
  | nil =>
    intro j st
    refine ⟨rfl, rfl, ?_, fun _ _ => rfl, ?_, fun _ _ => rfl, fun k hk => Or.inl hk⟩
    · intro i hi; simp at hi
    · intro i hi; simp at hi
  | cons d rest ih =>
    intro j st
    have hstep : writeShardsFrom st j (d :: rest)
        = writeShardsFrom (writeShard st j d) (j + 1) rest := rfl
    obtain ⟨pdisk, pfile, prep, e, pmap⟩ := writeShard_proj st j d
    obtain ⟨ihfile, ihrep, ihlook, ihpres, ihmsome, ihmpres, ihmkeys⟩ :=
      ih (j + 1) (writeShard st j d)
    refine ⟨?_, ?_, ?_, ?_, ?_, ?_, ?_⟩
    · rw [hstep, ihfile, pfile]
    · rw [hstep, ihrep, prep]
    · intro i hi
      cases i with
      | zero =>
        have hne : ∀ i', i' < rest.length → shardFile (j + 0) ≠ shardFile (j + 1 + i') := by
          intro i' hi' hc
          have := shardFile_inj hc
          omega
        rw [hstep, ihpres (shardFile (j + 0)) hne, pdisk]
        simp only [Nat.add_zero, List.getD_cons_zero]
        exact lookup_dictSet_self _ _ _
      | succ i =>
        rw [hstep, show j + (i + 1) = j + 1 + i by omega,
          ihlook i (by simpa using hi), List.getD_cons_succ]
    · intro name hname
      have hne : ∀ i, i < rest.length → name ≠ shardFile (j + 1 + i) := by
        intro i hi
        have h2 : i + 1 < (d :: rest).length := by simpa using hi
        have := hname (i + 1) h2
        rwa [show j + (i + 1) = j + 1 + i by omega] at this
      rw [hstep, ihpres name hne, pdisk,
        lookup_dictSet_ne _ _ _ _ (show name ≠ shardFile j by
          have := hname 0 (by simp)
          simpa using this)]
    · intro i hi
      cases i with
      | zero =>
        have hne : ∀ i', i' < rest.length → natDigits (j + 0) ≠ natDigits (j + 1 + i') := by
          intro i' hi' hc
          have := natDigits_inj hc
          omega
        rw [hstep, ihmpres (natDigits (j + 0)) hne, pmap]
        rw [Nat.add_zero, lookup_dictSet_self]
        rfl
      | succ i =>
        rw [hstep, show j + (i + 1) = j + 1 + i by omega]
        exact ihmsome i (by simpa using hi)
    · intro k hk
      have hne : ∀ i, i < rest.length → k ≠ natDigits (j + 1 + i) := by
        intro i hi
        have h2 : i + 1 < (d :: rest).length := by simpa using hi
        have := hk (i + 1) h2
        rwa [show j + (i + 1) = j + 1 + i by omega] at this
      rw [hstep, ihmpres k hne, pmap,
        lookup_dictSet_ne _ _ _ _ (show k ≠ natDigits j by
          have := hk 0 (by simp)
          simpa using this)]
    · intro k hk
      rw [hstep] at hk
      rcases ihmkeys k hk with hk2 | ⟨i, hi, hk2⟩
      · rw [pmap] at hk2
        rcases mem_keys_dictSet _ _ _ _ hk2 with hk3 | hk3
        · exact Or.inl hk3
        · exact Or.inr ⟨0, by simp, by simpa using hk3⟩
      · exact Or.inr ⟨i + 1, by simpa using hi,
          by rwa [show j + (i + 1) = j + 1 + i by omega]⟩

theorem writeShards_eq_from (st : PyState) (pieces : List (List Char)) :
    writeShards st pieces = writeShardsFrom st 0 pieces := rfl

/-- The deletion condition of the remove_shard loop: the file's name prefix
(before '-' for replica names, before '.' otherwise) is str(m). -/
def staleMatch (m : Nat) (name : List Char) : Prop :=
  if '-' ∈ name then name.takeWhile (fun c => decide (c ≠ '-')) = natDigits m
  else name.takeWhile (fun c => decide (c ≠ '.')) = natDigits m

theorem staleFileRemoveStep_of_match (m : Nat) (st : PyState) (f : List Char)
    (h : staleMatch m f) :
    staleFileRemoveStep m st f = { st with disk := dictDrop st.disk f } := by
  unfold staleMatch at h
  unfold staleFileRemoveStep
  by_cases hd : '-' ∈ f
  · rw [if_pos hd] at h
    rw [if_pos (by simpa using hd), if_pos h]
  · rw [if_neg hd] at h
    rw [if_neg (by simpa using hd), if_pos h]

theorem staleFileRemoveStep_of_not_match (m : Nat) (st : PyState) (f : List Char)
    (h : ¬ staleMatch m f) :
    staleFileRemoveStep m st f = st := by
  unfold staleMatch at h
  unfold staleFileRemoveStep
  by_cases hd : '-' ∈ f
  · rw [if_pos hd] at h
    rw [if_pos (by simpa using hd), if_neg h]
  · rw [if_neg hd] at h
    rw [if_neg (by simpa using hd), if_neg h]

theorem staleFold (m : Nat) :
    ∀ (fs : List (List Char)) (st : PyState),
      ((fs.foldl (staleFileRemoveStep m) st).mapping = st.mapping ∧
       (fs.foldl (staleFileRemoveStep m) st).mapfile = st.mapfile ∧
       (fs.foldl (staleFileRemoveStep m) st).lastCharPosition = st.lastCharPosition ∧
       (fs.foldl (staleFileRemoveStep m) st).replicationLevel = st.replicationLevel) ∧
      (∀ name, ¬ staleMatch m name →
        List.lookup name (fs.foldl (staleFileRemoveStep m) st).disk
          = List.lookup name st.disk) ∧
      (∀ name, List.lookup name st.disk = Option.none →
        List.lookup name (fs.foldl (staleFileRemoveStep m) st).disk = Option.none) ∧
      (∀ name ∈ fs, staleMatch m name →
        List.lookup name (fs.foldl (staleFileRemoveStep m) st).disk = Option.none) ∧
      (∀ name, name ∈ (fs.foldl (staleFileRemoveStep m) st).disk.map Prod.fst →
        name ∈ st.disk.map Prod.fst) := by
  intro fs
  induction fs with
  | nil =>
    intro st
    exact ⟨⟨rfl, rfl, rfl, rfl⟩, fun _ _ => rfl, fun _ hn => hn,
      fun name hn => by simp at hn, fun _ hn => hn⟩
  | cons f fs ih =>
    intro st
    by_cases hm : staleMatch m f
    · have hstep : (f :: fs).foldl (staleFileRemoveStep m) st
          = fs.foldl (staleFileRemoveStep m) { st with disk := dictDrop st.disk f } := by
        rw [List.foldl_cons, staleFileRemoveStep_of_match m st f hm]
      obtain ⟨⟨i1, i2, i3, i4⟩, ipres, inone, idel, ikeys⟩ :=
        ih { st with disk := dictDrop st.disk f }
      have hdropnone : ∀ name, List.lookup name st.disk = Option.none →
          List.lookup name (dictDrop st.disk f) = Option.none := by
        intro name hn
        by_cases hnf : name = f
        · subst hnf
          exact lookup_dictDrop_self _ _
        · rw [lookup_dictDrop_ne _ _ _ hnf]
          exact hn
      refine ⟨⟨by rw [hstep, i1], by rw [hstep, i2], by rw [hstep, i3],
        by rw [hstep, i4]⟩, ?_, ?_, ?_, ?_⟩
      · intro name hname
        have hnf : name ≠ f := fun hc => hname (hc ▸ hm)
        rw [hstep, ipres name hname]
        show List.lookup name (dictDrop st.disk f) = _
        exact lookup_dictDrop_ne _ _ _ hnf
      · intro name hn
        rw [hstep]
        exact inone name (hdropnone name hn)
      · intro name hname hsm
        rcases List.mem_cons.mp hname with rfl | hname'
        · rw [hstep]
          exact inone name (lookup_dictDrop_self _ _)
        · rw [hstep]
          exact idel name hname' hsm
      · intro name hn
        rw [hstep] at hn
        exact mem_keys_dictDrop _ _ _ (ikeys name hn)
    · have hstep : (f :: fs).foldl (staleFileRemoveStep m) st
          = fs.foldl (staleFileRemoveStep m) st := by
        rw [List.foldl_cons, staleFileRemoveStep_of_not_match m st f hm]
      obtain ⟨⟨i1, i2, i3, i4⟩, ipres, inone, idel, ikeys⟩ := ih st
      refine ⟨⟨by rw [hstep, i1], by rw [hstep, i2], by rw [hstep, i3],
        by rw [hstep, i4]⟩, ?_, ?_, ?_, ?_⟩
      · intro name hname
        rw [hstep]
        exact ipres name hname
      · intro name hn
        rw [hstep]
        exact inone name hn
      · intro name hname hsm
        rcases List.mem_cons.mp hname with rfl | hname'
        · exact absurd hsm hm
        · rw [hstep]
          exact idel name hname' hsm
      · intro name hn
        rw [hstep] at hn
        exact ikeys name hn

theorem maxList_range (n : Nat) : maxList (List.range n) = n - 1 := by
  induction n with
  | zero => rfl
  | succ n ih =>
    unfold maxList at ih ⊢
    rw [List.range_succ, List.foldl_append, List.foldl_cons, List.foldl_nil, ih,
      Nat.max_eq_right (Nat.sub_le n 1)]
    omega

theorem loadDataFromShards_eval (s : PyState) (n : Nat) (cs : List (List Char))
    (hids : getShardIds s = (List.range n).map natDigits)
    (hfiles : ∀ i ∈ List.range n, List.lookup (shardFile i) s.disk = some (cs.getD i [])) :
    loadDataFromShards s
      = .ok (((List.range n).map (fun i => cs.getD i [])).flatten) := by
  unfold loadDataFromShards
  rw [hids, mapM_ok_of_forall _ (fun db => cs.getD (digitsVal db) []) _ ?ok]
  case ok =>
    intro x hx
    rcases List.mem_map.mp hx with ⟨i, hi, rfl⟩
    show (match List.lookup (natDigits i ++ txtChars) s.disk with
      | some c => Except.ok c | none => Except.error PyErr.fileNotFound) = _
    rw [show natDigits i ++ txtChars = shardFile i from rfl, hfiles i hi]
    simp [digitsVal_natDigits]
  show Except.ok
      ((((List.range n).map natDigits).map (fun db => cs.getD (digitsVal db) [])).flatten)
    = _
  have hmapeq : (List.range n).map ((fun db => cs.getD (digitsVal db) []) ∘ natDigits)
      = (List.range n).map (fun i => cs.getD i []) :=
    List.map_congr_left (fun x _ => by simp [Function.comp, digitsVal_natDigits])
  rw [List.map_map, hmapeq]

/-- C6 (corrected): on a consistent replicated n-shard setup (n ≥ 2), a
successful remove_shard deletes the primary file and every replica file of
the highest shard id n-1 and removes its primary index entry, and the
surviving shard ids are exactly 0 .. n-2 with their primary files present;
but, contrary to the original claim, every replica index entry — including
those of the removed shard — is left in the mapping unchanged. -/
theorem claim6_removeshard_amended (s : PyState) (n : Nat) (cs : List (List Char))
    (h : ConsistentRepl s n cs) (hn2 : 2 ≤ n) (t : PyState)
    (hrun : removeShard s = .ok t) :
    List.lookup (shardFile (n - 1)) t.disk = Option.none ∧
    (∀ lvl, List.lookup (replicaFileOf (n - 1) lvl) t.disk = Option.none) ∧
    List.lookup (natDigits (n - 1)) t.mapping = Option.none ∧
    (∀ k, '-' ∈ k → List.lookup k t.mapping = List.lookup k s.mapping) ∧
    (∀ id, id ∈ getShardIds t ↔ ∃ i, i < n - 1 ∧ id = natDigits i) ∧
    (∀ i, i < n - 1 → (List.lookup (shardFile i) t.disk).isSome = true) ∧
    t.mapfile = t.mapping := by
  have hn10 := h.hn10
  obtain ⟨D, hD⟩ : ∃ x, x = ((List.range n).map (fun i => cs.getD i [])).flatten :=
    ⟨_, rfl⟩
  have hEval : removeShard s
      = (if List.range n = [] then Except.error PyErr.valueError
         else if maxList (List.range n) = 0 then Except.error PyErr.zeroDivision
         else syncReplication (writeMap (writeShards
           { (listdir s).foldl (staleFileRemoveStep (maxList (List.range n))) s with
               mapping := dictDrop
                 ((listdir s).foldl
                   (staleFileRemoveStep (maxList (List.range n))) s).mapping
                 (natDigits (maxList (List.range n))) }
           (generateShardedData (maxList (List.range n)) D)))) := by
    rw [hD]
    unfold removeShard
    simp only []
    rw [loadMap_eq_self h.map_sync, loadDataFromShards_eval s n cs h.ids h.files,
      h.ids, mapM_pyInt_natDigits n]
  rw [maxList_range n] at hEval
  rw [if_neg (show ¬ List.range n = [] by rw [List.range_eq_nil]; omega),
    if_neg (show ¬ n - 1 = 0 by omega)] at hEval
  obtain ⟨s1, hs1⟩ : ∃ x, x = (listdir s).foldl (staleFileRemoveStep (n - 1)) s :=
    ⟨_, rfl⟩
  rw [← hs1] at hEval
  obtain ⟨s2, hs2⟩ : ∃ x : PyState,
      x = { s1 with mapping := dictDrop s1.mapping (natDigits (n - 1)) } := ⟨_, rfl⟩
  rw [← hs2] at hEval
  obtain ⟨spliced, hsp⟩ : ∃ x, x = generateShardedData (n - 1) D := ⟨_, rfl⟩
  rw [← hsp] at hEval
  rw [writeShards_eq_from] at hEval
  obtain ⟨W, hW⟩ : ∃ x, x = writeShardsFrom s2 0 spliced := ⟨_, rfl⟩
  rw [← hW] at hEval
  rw [hEval] at hrun
  obtain ⟨⟨f1, f2, f3, f4⟩, spres, snone, sdel, skeys⟩ := staleFold (n - 1) (listdir s) s
  rw [← hs1] at f1 spres snone sdel skeys
  obtain ⟨wfile, wrep, wlook, wpres, wmsome, wmpres, wmkeys⟩ :=
    writeShardsFrom_basic spliced 0 s2
  rw [← hW] at wfile wlook wpres wmsome wmpres wmkeys
  have hsplen : spliced.length = n - 1 := by
    rw [hsp]
    exact generateShardedData_length _ _
  have hs2disk : s2.disk = s1.disk := by rw [hs2]
  have hs2map : s2.mapping = dictDrop s1.mapping (natDigits (n - 1)) := by rw [hs2]
  have hs1map : s1.mapping = s.mapping := f1
  have hsmP : staleMatch (n - 1) (shardFile (n - 1)) := by
    unfold staleMatch
    rw [if_neg (dash_not_mem_shardFile _)]
    exact takeWhile_dot_shardFile _
  have hA1 : List.lookup (shardFile (n - 1)) s1.disk = Option.none := by
    cases hl : List.lookup (shardFile (n - 1)) s.disk with
    | none => exact snone _ hl
    | some c => exact sdel _ (mem_keys_of_lookup_eq_some hl) hsmP
  have hAW : List.lookup (shardFile (n - 1)) W.disk = Option.none := by
    rw [wpres (shardFile (n - 1)) (fun i hi hc => by
        have := shardFile_inj hc
        omega), hs2disk]
    exact hA1
  have hBW : ∀ lvl, List.lookup (replicaFileOf (n - 1) lvl) W.disk = Option.none := by
    intro lvl
    have hsmR : staleMatch (n - 1) (replicaFileOf (n - 1) lvl) := by
      unfold staleMatch
      rw [if_pos (dash_mem_replicaFileOf _ _)]
      exact takeWhile_dash_replicaFileOf _ _
    have hB1 : List.lookup (replicaFileOf (n - 1) lvl) s1.disk = Option.none := by
      cases hl : List.lookup (replicaFileOf (n - 1) lvl) s.disk with
      | none => exact snone _ hl
      | some c => exact sdel _ (mem_keys_of_lookup_eq_some hl) hsmR
    rw [wpres _ (fun i hi hc => replicaFileOf_ne_shardFile _ _ _ hc), hs2disk]
    exact hB1
  have hCW : List.lookup (natDigits (n - 1)) W.mapping = Option.none := by
    rw [wmpres _ (fun i hi hc => by
        have := natDigits_inj hc
        omega), hs2map, lookup_dictDrop_self]
  have hDW : ∀ k, '-' ∈ k → List.lookup k W.mapping = List.lookup k s.mapping := by
    intro k hk
    rw [wmpres _ (fun i hi hc => dash_not_mem_natDigits (0 + i) (hc ▸ hk)), hs2map,
      lookup_dictDrop_ne _ _ _ (fun hc => dash_not_mem_natDigits _ (hc ▸ hk)), hs1map]
  have hEW : ∀ i, i < n - 1 →
      List.lookup (shardFile i) W.disk = some (spliced.getD i []) := by
    intro i hi
    have := wlook i (by omega)
    rwa [Nat.zero_add] at this
  have hFW : ∀ id, '-' ∉ id →
      (id ∈ W.mapping.map Prod.fst ↔ ∃ i, i < n - 1 ∧ id = natDigits i) := by
    intro id hnd
    constructor
    · intro hmem
      rcases wmkeys id hmem with hmem2 | ⟨i, hi, hk⟩
      · rw [hs2map] at hmem2
        have hne := ne_of_mem_keys_dictDrop _ _ _ hmem2
        have hmem3 := mem_keys_dictDrop _ _ _ hmem2
        rw [hs1map] at hmem3
        have hidS : id ∈ getShardIds s := (mem_getShardIds_iff s id).mpr ⟨hmem3, hnd⟩
        rw [h.ids] at hidS
        rcases List.mem_map.mp hidS with ⟨i, hi, rfl⟩
        have hilt : i < n := List.mem_range.mp hi
        have hinn : i ≠ n - 1 := fun hc => hne (by rw [hc])
        exact ⟨i, by omega, rfl⟩
      · exact ⟨i, by omega, by rwa [Nat.zero_add] at hk⟩
    · rintro ⟨i, hi, rfl⟩
      apply mem_keys_of_lookup_isSome
      have := wmsome i (by omega)
      rwa [Nat.zero_add] at this
  have hP : ∀ id ∈ getShardIds (writeMap W), id ∈ primaryHeads (writeMap W) := by
    intro id hid
    have hid' := (mem_getShardIds_iff (writeMap W) id).mp hid
    have hmemW : id ∈ W.mapping.map Prod.fst := hid'.1
    rcases (hFW id hid'.2).mp hmemW with ⟨i, hi, rfl⟩
    exact (mem_primaryHeads_iff (writeMap W) (natDigits i)).mpr
      ⟨shardFile i, mem_keys_of_lookup_eq_some (hEW i hi),
        dash_not_mem_shardFile i, head_shardFile_small i (by omega)⟩
  obtain ⟨tmap, tfile, tpos, trep⟩ := syncReplication_fields hrun
  have htmap : t.mapping = W.mapping := tmap
  have htfile : t.mapfile = W.mapping := tfile
  have hdiskP := syncReplication_disk_preserved hrun hP
  refine ⟨?_, ?_, ?_, ?_, ?_, ?_, ?_⟩
  · rw [hdiskP _ (dash_not_mem_shardFile _)]
    exact hAW
  · intro lvl
    cases hl : List.lookup (replicaFileOf (n - 1) lvl) t.disk with
    | none => rfl
    | some c =>
      exfalso
      have hmem : replicaFileOf (n - 1) lvl ∈ t.disk.map Prod.fst :=
        mem_keys_of_lookup_eq_some hl
      rcases syncReplication_keys hrun _ hmem with hk | ⟨id, hidmem, hk⟩
      · have hsm : (List.lookup (replicaFileOf (n - 1) lvl) W.disk).isSome = true :=
          (lookup_isSome_iff_mem_keys _ _).mpr hk
        rw [hBW lvl] at hsm
        cases hsm
      · have hid' := (mem_getShardIds_iff (writeMap W) id).mp hidmem
        have hdashmem : '-' ∈ id ++ txtChars := by
          rw [← hk]
          exact dash_mem_replicaFileOf _ _
        rcases List.mem_append.mp hdashmem with hc | hc
        · exact hid'.2 hc
        · exact dash_not_mem_txtChars hc
  · rw [htmap]
    exact hCW
  · intro k hk
    rw [htmap]
    exact hDW k hk
  · intro id
    constructor
    · intro hid
      have hid' := (mem_getShardIds_iff t id).mp hid
      have hmemW : id ∈ W.mapping.map Prod.fst := by
        rw [← htmap]
        exact hid'.1
      exact (hFW id hid'.2).mp hmemW
    · rintro ⟨i, hi, rfl⟩
      refine (mem_getShardIds_iff t (natDigits i)).mpr ⟨?_, dash_not_mem_natDigits i⟩
      rw [htmap]
      exact mem_keys_of_lookup_isSome (by
        have := wmsome i (by omega)
        rwa [Nat.zero_add] at this)
  · intro i hi
    have hpp := hdiskP (shardFile i) (dash_not_mem_shardFile i)
    rw [hpp]
    show (List.lookup (shardFile i) W.disk).isSome = true
    rw [hEW i hi]
    rfl
  · rw [htfile, htmap]

/-- Closed witness for C6: removing a shard from the concrete replicated
two-shard state deletes shard 1's files and primary entry but keeps its
replica index entry. -/
theorem claim6_removeshard_amended_witness :
    List.lookup (shardFile 1) removedState.disk = Option.none ∧
    (∀ lvl, List.lookup (replicaFileOf 1 lvl) removedState.disk = Option.none) ∧
    List.lookup (natDigits 1) removedState.mapping = Option.none ∧
    (∀ k, '-' ∈ k →
      List.lookup k removedState.mapping = List.lookup k twoRepState.mapping) ∧
    (∀ id, id ∈ getShardIds removedState ↔ ∃ i, i < 1 ∧ id = natDigits i) ∧
    (∀ i, i < 1 → (List.lookup (shardFile i) removedState.disk).isSome = true) ∧
    removedState.mapfile = removedState.mapping :=
  claim6_removeshard_amended twoRepState 2 ["a".data, "b".data]
    ⟨by decide, by decide, by decide, by decide, by decide, by decide, by decide,
      by decide⟩ (by decide) removedState (by decide)

/-! ### C5: add_shard -/

theorem replicaFileOf_eq_alt2 (n lvl : Nat) :
    replicaFileOf n lvl = natDigits n ++ ('-' :: natDigits lvl) ++ txtChars := by
  unfold replicaFileOf replicaKeyOf
  rw [List.append_assoc]

theorem map_getD_range {α : Type} (d : α) (cs : List α) :
    (List.range cs.length).map (fun i => cs.getD i d) = cs := by
  apply List.ext_getElem
  · simp
  · intro i h1 h2
    simp only [List.getElem_map, List.getElem_range]
    rw [List.getD_eq_getElem cs d h2]

/-- C5 (corrected): on a consistent replicated n-shard setup with dataset
cs (1 ≤ n, and n ≤ 10 so every id is a single digit), a successful
add_shard leaves exactly the n+1 primary shard ids 0 .. n in the index,
with all n+1 primary files present, and concatenating the primary files in
ascending numeric id order reproduces the dataset. -/
theorem claim5_addshard_amended (s : PyState) (n : Nat) (cs : List (List Char))
    (h : ConsistentRepl s n cs) (hn1 : 1 ≤ n) (hcs : cs.length = n) (t : PyState)
    (hrun : addShard s = .ok t) :
    (∀ id, id ∈ getShardIds t ↔ ∃ i, i < n + 1 ∧ id = natDigits i) ∧
    (∀ i, i < n + 1 → (List.lookup (shardFile i) t.disk).isSome = true) ∧
    reconstructDisk t (n + 1) = cs.flatten ∧
    t.mapfile = t.mapping := by
  have hn10 := h.hn10
  obtain ⟨D, hD⟩ : ∃ x, x = ((List.range n).map (fun i => cs.getD i [])).flatten :=
    ⟨_, rfl⟩
  have hEval : addShard s
      = (if List.range n = [] then Except.error PyErr.valueError
         else syncReplication (writeMap (writeShards s
           (generateShardedData (maxList (List.range n) + 2) D)))) := by
    rw [hD]
    unfold addShard
    simp only []
    rw [loadMap_eq_self h.map_sync, loadDataFromShards_eval s n cs h.ids h.files,
      h.ids, mapM_pyInt_natDigits n]
  rw [maxList_range n, if_neg (show ¬ List.range n = [] by rw [List.range_eq_nil]; omega),
    show n - 1 + 2 = n + 1 by omega] at hEval
  obtain ⟨spliced, hsp⟩ : ∃ x, x = generateShardedData (n + 1) D := ⟨_, rfl⟩
  rw [← hsp, writeShards_eq_from] at hEval
  obtain ⟨W, hW⟩ : ∃ x, x = writeShardsFrom s 0 spliced := ⟨_, rfl⟩
  rw [← hW] at hEval
  rw [hEval] at hrun
  obtain ⟨wfile, wrep, wlook, wpres, wmsome, wmpres, wmkeys⟩ :=
    writeShardsFrom_basic spliced 0 s
  rw [← hW] at wfile wlook wpres wmsome wmpres wmkeys
  have hsplen : spliced.length = n + 1 := by
    rw [hsp]
    exact generateShardedData_length _ _
  have hEW : ∀ i, i < n + 1 →
      List.lookup (shardFile i) W.disk = some (spliced.getD i []) := by
    intro i hi
    have := wlook i (by omega)
    rwa [Nat.zero_add] at this
  have hGW : ∀ id, '-' ∉ id →
      (id ∈ W.mapping.map Prod.fst ↔ ∃ i, i < n + 1 ∧ id = natDigits i) := by
    intro id hnd
    constructor
    · intro hmem
      rcases wmkeys id hmem with hmem2 | ⟨i, hi, hk⟩
      · have hidS : id ∈ getShardIds s := (mem_getShardIds_iff s id).mpr ⟨hmem2, hnd⟩
        rw [h.ids] at hidS
        rcases List.mem_map.mp hidS with ⟨i, hi, rfl⟩
        have hilt : i < n := List.mem_range.mp hi
        exact ⟨i, by omega, rfl⟩
      · exact ⟨i, by omega, by rwa [Nat.zero_add] at hk⟩
    · rintro ⟨i, hi, rfl⟩
      apply mem_keys_of_lookup_isSome
      have := wmsome i (by omega)
      rwa [Nat.zero_add] at this
  have hrec : ∀ u : PyState,
      (∀ i, i < n + 1 → List.lookup (shardFile i) u.disk = some (spliced.getD i [])) →
      reconstructDisk u (n + 1) = cs.flatten := by
    intro u hu
    unfold reconstructDisk
    have hmapeq : (List.range (n + 1)).map
        (fun i => (List.lookup (shardFile i) u.disk).getD [])
        = (List.range (n + 1)).map (fun i => spliced.getD i []) :=
      List.map_congr_left (fun i hi => by
        rw [hu i (List.mem_range.mp hi)]
        rfl)
    rw [hmapeq]
    rw [← hsplen, map_getD_range [] spliced, hsp,
      generateShardedData_flatten _ _ (by omega), hD,
      show (List.range n).map (fun i => cs.getD i []) = cs from by
        rw [← hcs]
        exact map_getD_range [] cs]
  rcases syncReplication_cases hrun with ⟨hrep, rfl⟩ | ⟨hrep, m, hvp, hvr⟩
  · refine ⟨?_, ?_, ?_, rfl⟩
    · intro id
      constructor
      · intro hid
        have hid' := (mem_getShardIds_iff (writeMap W) id).mp hid
        exact (hGW id hid'.2).mp hid'.1
      · rintro ⟨i, hi, rfl⟩
        exact (mem_getShardIds_iff (writeMap W) (natDigits i)).mpr
          ⟨(hGW (natDigits i) (dash_not_mem_natDigits i)).mpr ⟨i, hi, rfl⟩,
            dash_not_mem_natDigits i⟩
    · intro i hi
      show (List.lookup (shardFile i) W.disk).isSome = true
      rw [hEW i hi]
      rfl
    · exact hrec (writeMap W) (fun i hi => hEW i hi)
  · by_cases hn9 : n ≤ 9
    · have hP : ∀ id ∈ getShardIds (writeMap W), id ∈ primaryHeads (writeMap W) := by
        intro id hid
        have hid' := (mem_getShardIds_iff (writeMap W) id).mp hid
        rcases (hGW id hid'.2).mp hid'.1 with ⟨i, hi, rfl⟩
        exact (mem_primaryHeads_iff (writeMap W) (natDigits i)).mpr
          ⟨shardFile i, mem_keys_of_lookup_eq_some (hEW i hi),
            dash_not_mem_shardFile i, head_shardFile_small i (by omega)⟩
      obtain ⟨tmap, tfile, tpos, trep⟩ := syncReplication_fields hrun
      have htmap : t.mapping = W.mapping := tmap
      have htfile : t.mapfile = W.mapping := tfile
      have hdiskP := syncReplication_disk_preserved hrun hP
      refine ⟨?_, ?_, ?_, ?_⟩
      · intro id
        constructor
        · intro hid
          have hid' := (mem_getShardIds_iff t id).mp hid
          have hmemW : id ∈ W.mapping.map Prod.fst := by
            rw [← htmap]
            exact hid'.1
          exact (hGW id hid'.2).mp hmemW
        · rintro ⟨i, hi, rfl⟩
          refine (mem_getShardIds_iff t (natDigits i)).mpr
            ⟨?_, dash_not_mem_natDigits i⟩
          rw [htmap]
          exact (hGW (natDigits i) (dash_not_mem_natDigits i)).mpr ⟨i, hi, rfl⟩
      · intro i hi
        rw [hdiskP _ (dash_not_mem_shardFile _)]
        show (List.lookup (shardFile i) W.disk).isSome = true
        rw [hEW i hi]
        rfl
      · refine hrec t ?_
        intro i hi
        rw [hdiskP _ (dash_not_mem_shardFile _)]
        exact hEW i hi
      · rw [htfile, htmap]
    · exfalso
      have hn10' : n = 10 := by omega
      subst hn10'
      have hbadlen : ¬ ((natDigits 10).length = 1) := by decide
      have hbadnotmem : natDigits 10 ∉ primaryHeads (writeMap W) :=
        fun hc => hbadlen (mem_primaryHeads_length hc)
      have hlooknone : List.lookup
          (replicaFileOf 10 (findHighestReplicationLevel (writeMap W)))
          (writeMap W).disk = Option.none := by
        show List.lookup
          (replicaFileOf 10 (findHighestReplicationLevel (writeMap W)))
          W.disk = Option.none
        rw [wpres _ (fun i hi hc => replicaFileOf_ne_shardFile _ _ _ hc)]
        cases hl : List.lookup
            (replicaFileOf 10 (findHighestReplicationLevel (writeMap W))) s.disk with
        | none => rfl
        | some c =>
          exfalso
          rcases h.disk_shape _ (mem_keys_of_lookup_eq_some hl) with
            ⟨j, _, hj⟩ | ⟨j, hjmem, lvl, _, _, hj⟩
          · exact replicaFileOf_ne_shardFile _ _ _ hj
          · have := (replicaFileOf_inj hj).1
            have := List.mem_range.mp hjmem
            omega
      have halt : natDigits 10
            ++ '-' :: natDigits (findHighestReplicationLevel (writeMap W)) ++ txtChars
          = replicaFileOf 10 (findHighestReplicationLevel (writeMap W)) := by
        rw [replicaFileOf_eq_alt2]
      have hstep : primaryRepairStep (primaryHeads (writeMap W)) (writeMap W)
          (natDigits 10) = .error .fileNotFound := by
        unfold primaryRepairStep
        rw [if_neg hbadnotmem, halt, hlooknone]
      have hbadmem : natDigits 10 ∈ getShardIds (writeMap W) :=
        (mem_getShardIds_iff (writeMap W) (natDigits 10)).mpr
          ⟨(hGW (natDigits 10) (dash_not_mem_natDigits 10)).mpr ⟨10, by omega, rfl⟩,
            dash_not_mem_natDigits 10⟩
      have hall : ∀ id ∈ getShardIds (writeMap W),
          id ∈ primaryHeads (writeMap W) ∨ id = natDigits 10 := by
        intro id hid
        have hid' := (mem_getShardIds_iff (writeMap W) id).mp hid
        rcases (hGW id hid'.2).mp hid'.1 with ⟨i, hi, rfl⟩
        rcases Nat.lt_or_ge i 10 with hi9 | hi10
        · exact Or.inl ((mem_primaryHeads_iff (writeMap W) (natDigits i)).mpr
            ⟨shardFile i, mem_keys_of_lookup_eq_some (hEW i (by omega)),
              dash_not_mem_shardFile i, head_shardFile_small i hi9⟩)
        · have : i = 10 := by omega
          exact Or.inr (by rw [this])
      have hvperr : verifyPrimaries (writeMap W) = .error .fileNotFound := by
        unfold verifyPrimaries
        exact vpFold_error _ _ _ _ _ hall hbadmem hstep
      rw [hvperr] at hvp
      cases hvp

/-- The state produced by a successful add_shard on the consistent
single-shard depth-1 state. -/
def addedPairState : PyState := (okState (addShard consistentPairState)).getD initState

/-- Closed witness for C5: add_shard on the concrete consistent one-shard
state yields shard ids 0 and 1 with both primaries present and the dataset
reconstructed. -/
theorem claim5_addshard_amended_witness :
    (∀ id, id ∈ getShardIds addedPairState ↔ ∃ i, i < 1 + 1 ∧ id = natDigits i) ∧
    (∀ i, i < 1 + 1 → (List.lookup (shardFile i) addedPairState.disk).isSome = true) ∧
    reconstructDisk addedPairState (1 + 1) = (["ab".data] : List (List Char)).flatten ∧
    addedPairState.mapfile = addedPairState.mapping :=
  claim5_addshard_amended consistentPairState 1 ["ab".data]
    ⟨by decide, by decide, by decide, by decide, by decide, by decide, by decide,
      by decide⟩ (by decide) (by decide) addedPairState (by decide)
